import Mathlib

/-!
Verification of the `latexdiff-tools` repository (two Python scripts:
`latexdiffcite.py` and `tex_concatenator.py`).

Strings are modelled as lists of characters (`Str`).  Python regular-expression
substitutions (`re.sub`, applied left-to-right, non-overlapping, leftmost
match) are modelled by the fuelled scanner `applySub` below together with one
deterministic matcher per pattern; each matcher is derived from the concrete
pattern in the source (all the patterns involved are deterministic after
resolving greedy/lazy repetition against the fixed literals that follow them,
which is argued case by case in the comments).  External subprocesses
(`latexdiff`, `pdflatex`, `bibtex`) are not modelled; their output is a
parameter of the functions that consume it, exactly as the Python code treats
`result.stdout`.
-/

/-- Characters strings, modelled as lists of characters. -/
abbrev Str := List Char

/-- Python's `\s` (ASCII range): space, tab, newline, carriage return,
vertical tab, form feed. -/
def isWs (c : Char) : Bool :=
  c = ' ' || c = '\t' || c = '\n' || c = '\r' || c = '\x0b' || c = '\x0c'

/-- `startsWith pat s` : `pat` is a prefix of `s`. -/
def startsWith : Str → Str → Bool
  | [], _ => true
  | _ :: _, [] => false
  | p :: ps, c :: cs => p = c && startsWith ps cs

theorem startsWith_iff (pat s : Str) : startsWith pat s = true ↔ pat <+: s := by
  induction pat generalizing s with
  | nil => simp [startsWith]
  | cons p ps ih =>
    cases s with
    | nil => simp [startsWith]
    | cons c cs =>
      simp [startsWith, ih, List.cons_prefix_cons]

/-- Length of the maximal whitespace run at the front of `s`. -/
def wsLen (s : Str) : Nat := (s.takeWhile isWs).length

/-- The literal `{` character (written via its code throughout). -/
def lb : Char := '\x7b'

/-- The literal `}` character. -/
def rb : Char := '\x7d'

/--
One round of Python's `re.sub` scanning, with explicit fuel.  `m s` returns
`some (repl, k)` when the pattern matches at the start of `s`, consuming
`k + 1` characters and producing replacement `repl`; `none` otherwise.  The
scanner tries every position from left to right and never rescans a
replacement, exactly like `re.sub`.
-/
def rewriteSub (m : Str → Option (Str × Nat)) : Nat → Str → Str
  | 0, s => s
  | _ + 1, [] => []
  | fuel + 1, c :: cs =>
    match m (c :: cs) with
    | some (repl, k) => repl ++ rewriteSub m fuel (List.drop k cs)
    | none => c :: rewriteSub m fuel cs

/-- Apply one `re.sub` pass to a whole string (fuel = length suffices because
every match consumes at least one character). -/
def applySub (m : Str → Option (Str × Nat)) (s : Str) : Str :=
  rewriteSub m s.length s

/-- The token `\DIFdelend` (10 characters). -/
def difDelendTok : Str := '\\' :: "DIFdelend".toList

/-- The token `\DIFaddbegin` (12 characters). -/
def difAddbeginTok : Str := '\\' :: "DIFaddbegin".toList

/-- The token `\DIFaddend` (10 characters). -/
def difAddendTok : Str := '\\' :: "DIFaddend".toList

/-- The token `\DIFdelbegin` (12 characters). -/
def difDelbeginTok : Str := '\\' :: "DIFdelbegin".toList

/-- The token `\DIFadd{` (8 characters). -/
def difAddOpenTok : Str := '\\' :: "DIFadd".toList ++ [lb]

/-- The token `\DIFdel{` (8 characters). -/
def difDelOpenTok : Str := '\\' :: "DIFdel".toList ++ [lb]

/-- The text `{thebibliography}`. -/
def thebibBraced : Str := lb :: "thebibliography".toList ++ [rb]

/-- The text `begin{thebibliography}` (22 characters). -/
def beginThebib : Str := "begin".toList ++ thebibBraced

/-- The text `\begin{thebibliography}` (23 characters). -/
def bsBeginThebib : Str := '\\' :: beginThebib

/-- The text `\end{thebibliography}` (21 characters). -/
def endThebib : Str := '\\' :: "end".toList ++ thebibBraced

/-- The token `\begin` (6 characters). -/
def bsBeginTok : Str := '\\' :: "begin".toList

/-- The token `\end` (4 characters). -/
def bsEndTok : Str := '\\' :: "end".toList

/--
Matcher for `\\DIFdelend\s*\\DIFaddbegin\s*\\?begin{thebibliography}` with
replacement `\begin{thebibliography}` (first substitution of
`clean_difcommands`).  The `\s*` repetitions are forced: the literals that
follow them start with `\`, which is not whitespace, so backtracking cannot
produce any other division; `\\?` greedily takes the backslash when present.
-/
def matchDelAddBegin (s : Str) : Option (Str × Nat) :=
  if startsWith difDelendTok s then
    let r1 := List.drop 10 s
    let w1 := wsLen r1
    let r2 := List.drop w1 r1
    if startsWith difAddbeginTok r2 then
      let r3 := List.drop 12 r2
      let w2 := wsLen r3
      let r4 := List.drop w2 r3
      if startsWith bsBeginThebib r4 then
        some (bsBeginThebib, 10 + w1 + 12 + w2 + 23 - 1)
      else if startsWith beginThebib r4 then
        some (bsBeginThebib, 10 + w1 + 12 + w2 + 22 - 1)
      else none
    else none
  else none

/--
Matcher for `tok\s*\n*` with replacement `tok␣` (the `\DIFaddbegin` /
`\DIFdelbegin` normalisation passes of `clean_difcommands`).  `\s*\n*`
consumes exactly the maximal whitespace run after the token.
-/
def matchTokWs (tok : Str) (s : Str) : Option (Str × Nat) :=
  if startsWith tok s then
    let w := wsLen (List.drop tok.length s)
    some (tok ++ [' '], tok.length + w - 1)
  else none

/--
Matcher for `\s*tok\s*\n*` with replacement `␣tok␣` (the `\DIFaddend` /
`\DIFdelend` normalisation passes).  Both whitespace runs are maximal: the
token starts with `\`, which is not whitespace, so the leading `\s*` cannot
end anywhere except where the token starts.
-/
def matchWsTokWs (tok : Str) (s : Str) : Option (Str × Nat) :=
  let w1 := wsLen s
  let r := List.drop w1 s
  if startsWith tok r then
    let w2 := wsLen (List.drop tok.length r)
    some (' ' :: tok ++ [' '], w1 + tok.length + w2 - 1)
  else none

/--
Matcher for `(tok[^}]*})\s*\n\s*` with replacement `\1␣` (the line-joining
passes for `\DIFadd{...}` / `\DIFdel{...}`).  The group runs to the first `}`;
`\s*\n\s*` matches exactly when the following maximal whitespace run contains
a newline, and then consumes the whole run.
-/
def notRb (c : Char) : Bool := c ≠ rb

def matchGroupNl (tok : Str) (s : Str) : Option (Str × Nat) :=
  if startsWith tok s then
    let r := List.drop tok.length s
    let body := r.takeWhile notRb
    match List.drop body.length r with
    | c :: r3 =>
      if c = rb then
        let w := r3.takeWhile isWs
        if '\n' ∈ w then
          some (tok ++ body ++ [rb, ' '], tok.length + body.length + 1 + w.length - 1)
        else none
      else none
    | [] => none
  else none

/-- Matcher for `\s+` with replacement `␣` (whitespace collapsing). -/
def matchWsRun (s : Str) : Option (Str × Nat) :=
  match s with
  | c :: _ => if isWs c then some ([' '], wsLen s - 1) else none
  | [] => none

/--
Matcher for `tok\s+{` with replacement `tok{` (the `\begin␣{` / `\end␣{`
fix-up passes).  The whitespace run is maximal because `{` is not whitespace.
-/
def matchTokWsBrace (tok : Str) (s : Str) : Option (Str × Nat) :=
  if startsWith tok s then
    let r := List.drop tok.length s
    let w := wsLen r
    if w ≥ 1 then
      if startsWith [lb] (List.drop w r) then
        some (tok ++ [lb], tok.length + w + 1 - 1)
      else none
    else none
  else none

/-- `clean_difcommands` from `latexdiffcite.py`: the ten `re.sub` passes in
source order. -/
def clean_difcommands (t : Str) : Str :=
  let t := applySub matchDelAddBegin t
  let t := applySub (matchTokWs difAddbeginTok) t
  let t := applySub (matchWsTokWs difAddendTok) t
  let t := applySub (matchTokWs difDelbeginTok) t
  let t := applySub (matchWsTokWs difDelendTok) t
  let t := applySub (matchGroupNl difAddOpenTok) t
  let t := applySub (matchGroupNl difDelOpenTok) t
  let t := applySub matchWsRun t
  let t := applySub (matchTokWsBrace bsBeginTok) t
  let t := applySub (matchTokWsBrace bsEndTok) t
  t

example : clean_difcommands ("a   b".toList) = "a b".toList := by decide

example : clean_difcommands ('\\' :: "begin".toList ++ [' ', '\n', lb, 'x', rb]) =
    '\\' :: "begin".toList ++ [lb, 'x', rb] := by decide

example :
    clean_difcommands (difAddbeginTok ++ '\n' :: "x".toList) =
      difAddbeginTok ++ [' ', 'x'] := by decide

/--
`splitFirst pat s` finds the first occurrence of `pat` in `s`:
`some (before, after)` with `s = before ++ pat ++ after` and `before`
minimal, or `none` when `pat` does not occur.
-/
def splitFirst (pat : Str) : Str → Option (Str × Str)
  | [] => if pat = [] then some ([], []) else none
  | c :: cs =>
    if startsWith pat (c :: cs) then some ([], List.drop pat.length (c :: cs))
    else
      match splitFirst pat cs with
      | some (a, b) => some (c :: a, b)
      | none => none

/--
`extract_bibliography` from `latexdiffcite.py`: the first (lazy, `DOTALL`)
match of `\\begin{thebibliography}.*?\\end{thebibliography}`, or the empty
string.  The match starts at the first occurrence of the begin literal and the
lazy `.*?` stops at the first following occurrence of the end literal; if the
first begin literal has no end literal after it then no later one has either,
so the search fails.
-/
def extract_bibliography (text : Str) : Str :=
  match splitFirst bsBeginThebib text with
  | none => []
  | some (_, rest) =>
    match splitFirst endThebib rest with
    | none => []
    | some (mid, _) => bsBeginThebib ++ mid ++ endThebib

/-- The text `\begin{thebibliography}{` (24 characters). -/
def beginMarkerPre : Str := bsBeginThebib ++ [lb]

/--
Match of `\\begin{thebibliography}{(\d+)}` at the head of `s`: returns the
captured digit run and the total length of the match.  `\d+` is greedy and
followed by the literal `}`, so the capture is exactly the maximal digit run,
which must be nonempty and immediately followed by `}`.
-/
def numMarkerAt (s : Str) : Option (Str × Nat) :=
  if startsWith beginMarkerPre s then
    let r := List.drop 24 s
    let ds := r.takeWhile Char.isDigit
    if ds ≠ [] then
      if startsWith [rb] (List.drop ds.length r) then some (ds, 24 + ds.length + 1)
      else none
    else none
  else none

/-- `re.search(r'\\begin{thebibliography}{(\d+)}', s)`: first captured group. -/
def findNumMarker : Str → Option Str
  | [] => none
  | c :: cs =>
    match numMarkerAt (c :: cs) with
    | some (ds, _) => some ds
    | none => findNumMarker cs

/-- Substitution matcher replacing every `\begin{thebibliography}{<digits>}`
by `\begin{thebibliography}{n}`. -/
def matchNumMarkerSub (n : Str) (s : Str) : Option (Str × Nat) :=
  match numMarkerAt s with
  | some (_, len) => some (beginMarkerPre ++ n ++ [rb], len - 1)
  | none => none

/--
`fix_bibliography_enumeration` from `latexdiffcite.py`.  The Python code
dereferences the result of `re.search` without a guard; a failed search
raises `AttributeError`, modelled by `none`.
-/
def fix_bibliography_enumeration (bib_text final_bib_text : Str) : Option Str :=
  match findNumMarker final_bib_text with
  | none => none
  | some n => some (applySub (matchNumMarkerSub n) bib_text)

/-- Literal-string substitution matcher (Python `str.replace`, every
non-overlapping occurrence, left to right). -/
def matchLit (pat repl : Str) (s : Str) : Option (Str × Nat) :=
  match pat with
  | [] => none
  | _ :: _ => if startsWith pat s then some (repl, pat.length - 1) else none

/-- Python `s.replace(pat, repl)` for nonempty `pat`. -/
def pyReplace (s pat repl : Str) : Str := applySub (matchLit pat repl) s

/--
`process_files` from `latexdiffcite.py`, starting after the `latexdiff`
subprocess: `diff_text` is the diff tool's standard output and `new_text` the
content of the new file.  `none` models an uncaught exception
(`fix_bibliography_enumeration` dereferencing a failed match).
-/
def process_files (diff_text new_text : Str) : Option Str :=
  let diff_bib := extract_bibliography diff_text
  let new_bib := extract_bibliography new_text
  if diff_bib ≠ [] ∧ new_bib ≠ [] then
    match fix_bibliography_enumeration diff_bib new_bib with
    | none => none
    | some fb =>
      let fixed_bib := clean_difcommands fb
      let t := clean_difcommands (pyReplace diff_text diff_bib fixed_bib)
      some (if t.getLast? = some '\n' then t else t ++ ['\n'])
  else
    let t := clean_difcommands diff_text
    some (if t.getLast? = some '\n' then t else t ++ ['\n'])

/-! ### Generic list and scanner lemmas -/

theorem drop_length_takeWhile (p : Char → Bool) (l : Str) :
    List.drop (List.takeWhile p l).length l = List.dropWhile p l := by
  have h := List.takeWhile_append_dropWhile p l
  calc List.drop (List.takeWhile p l).length l
      = List.drop (List.takeWhile p l).length (List.takeWhile p l ++ List.dropWhile p l) := by
        rw [h]
    _ = List.dropWhile p l := List.drop_left _ _

theorem startsWith_append_of_le (pat x y : Str) (h : pat.length ≤ x.length) :
    startsWith pat (x ++ y) = startsWith pat x := by
  induction pat generalizing x with
  | nil => simp [startsWith]
  | cons p ps ih =>
    cases x with
    | nil => simp at h
    | cons c cs =>
      simp only [List.cons_append, startsWith, List.append_eq]
      rw [ih cs (by simpa using h)]

/-- Decompose an infix occurrence across an append: the occurrence lies in the
left part, in the right part, or straddles the boundary. -/
theorem infix_append_cases {p x y : Str} (h : p <:+: x ++ y) :
    p <:+: x ∨ p <:+: y ∨
      ∃ p₁ p₂, p = p₁ ++ p₂ ∧ p₁ ≠ [] ∧ p₂ ≠ [] ∧ p₁ <:+ x ∧ p₂ <+: y := by
  obtain ⟨a, b, hab⟩ := h
  rw [List.append_assoc] at hab
  rcases List.append_eq_append_iff.mp hab.symm with ⟨x', hx1, hx2⟩ | ⟨a', ha1, ha2⟩
  · right; left
    exact ⟨x', b, by rw [hx2, List.append_assoc]⟩
  · rcases List.append_eq_append_iff.mp ha2 with ⟨p', hp1, hp2⟩ | ⟨q, hq1, hq2⟩
    · left
      exact ⟨a, p', by rw [ha1, hp1, List.append_assoc]⟩
    · rcases eq_or_ne a' [] with rfl | ha'
      · right; left
        simp only [List.nil_append] at hq1
        exact ⟨[], b, by rw [hq2, hq1, List.nil_append]⟩
      · rcases eq_or_ne q [] with rfl | hq
        · left
          exact ⟨a, [], by rw [ha1, hq1]; simp⟩
        · right; right
          exact ⟨a', q, hq1, ha', hq, ⟨a, ha1.symm⟩, ⟨b, hq2.symm⟩⟩

theorem rewriteSub_nil (m : Str → Option (Str × Nat)) (fuel : Nat) :
    rewriteSub m fuel [] = [] := by
  cases fuel <;> rfl

/-- If the matcher cannot fire at any position inside `w`, the scanner copies
`w` verbatim and continues on `y`. -/
theorem rewriteSub_copy (m : Str → Option (Str × Nat)) (w y : Str)
    (hnf : ∀ i, i < w.length → m (List.drop i w ++ y) = none) :
    ∀ fuel, rewriteSub m fuel (w ++ y) = w ++ rewriteSub m (fuel - w.length) y := by
  induction w with
  | nil => simp
  | cons c w' ih =>
    intro fuel
    cases fuel with
    | zero =>
      have : rewriteSub m (0 - (c :: w').length) y = y := by
        simp [Nat.zero_sub, rewriteSub]
      simp [rewriteSub, this]
    | succ f =>
      have h0 : m (c :: (w' ++ y)) = none := by simpa using hnf 0 (by simp)
      have ih' := ih (fun i hi => by simpa using hnf (i + 1) (by simpa using hi)) f
      simp only [List.cons_append, rewriteSub, List.append_eq, h0]
      rw [ih']
      simp [Nat.succ_sub_succ]

/-- If the matcher fires at no suffix of `s`, the scanner is the identity. -/
theorem rewriteSub_id_of_nofire (m : Str → Option (Str × Nat)) :
    ∀ (fuel : Nat) (s : Str), (∀ t, t <:+ s → m t = none) → rewriteSub m fuel s = s := by
  intro fuel
  induction fuel with
  | zero => intro s _; rfl
  | succ f ih =>
    intro s h
    cases s with
    | nil => rfl
    | cons c cs =>
      have h0 : m (c :: cs) = none := h _ List.suffix_rfl
      simp only [rewriteSub, h0]
      rw [ih cs (fun t ht => h t (ht.trans (List.suffix_cons c cs)))]

/-- Characters of the scanner output: each comes from the input or from a
replacement. -/
theorem rewriteSub_chars (m : Str → Option (Str × Nat)) (P : Char → Prop)
    (hr : ∀ s r k, m s = some (r, k) → ∀ c ∈ r, P c) :
    ∀ (fuel : Nat) (s : Str), (∀ c ∈ s, P c) → ∀ c ∈ rewriteSub m fuel s, P c := by
  intro fuel
  induction fuel with
  | zero => intro s hs; exact hs
  | succ f ih =>
    intro s hs c hc
    cases s with
    | nil => simp [rewriteSub] at hc
    | cons c₀ cs =>
      cases hm : m (c₀ :: cs) with
      | some rk =>
        obtain ⟨r, k⟩ := rk
        simp only [rewriteSub, hm, List.mem_append] at hc
        rcases hc with hc | hc
        · exact hr _ _ _ hm c hc
        · exact ih _ (fun d hd => hs d (List.mem_cons_of_mem _ (List.mem_of_mem_drop hd))) c hc
      | none =>
        simp only [rewriteSub, hm, List.mem_cons] at hc
        rcases hc with rfl | hc
        · exact hs c (List.mem_cons_self c cs)
        · exact ih _ (fun d hd => hs d (List.mem_cons_of_mem _ hd)) c hc

/-- A character that no matcher of interest can fire on and no replacement of
interest can start with: neither whitespace nor a backslash. -/
def okChar (c : Char) : Prop := isWs c = false ∧ c ≠ '\\'

/--
Prefix reflection: if every matcher fire and every replacement starts with
whitespace or a backslash, then a prefix `w` of the scanner output made of
`okChar` characters is already a prefix of the input, and the scanner copies
it verbatim.
-/
theorem rewriteSub_reflect_front (m : Str → Option (Str × Nat))
    (hrepl : ∀ s r k, m s = some (r, k) → ∃ c t, r = c :: t ∧ (isWs c = true ∨ c = '\\')) :
    ∀ (w : Str), (∀ c ∈ w, okChar c) →
      ∀ (fuel : Nat) (s : Str), w <+: rewriteSub m fuel s →
        w <+: s ∧ rewriteSub m fuel s = w ++ rewriteSub m (fuel - w.length) (List.drop w.length s) := by
  intro w
  induction w with
  | nil => intro _ fuel s _; exact ⟨List.nil_prefix, by simp⟩
  | cons w₀ w' ih =>
    intro hok fuel s hpre
    cases fuel with
    | zero =>
      refine ⟨hpre, ?_⟩
      obtain ⟨t, ht⟩ := hpre
      rw [show rewriteSub m 0 s = s from rfl] at ht
      have hd : List.drop (w₀ :: w').length s = t := by
        rw [← ht]; exact List.drop_left _ _
      calc rewriteSub m 0 s = s := rfl
        _ = (w₀ :: w') ++ t := ht.symm
        _ = (w₀ :: w') ++ rewriteSub m (0 - (w₀ :: w').length) (List.drop (w₀ :: w').length s) := by
            rw [hd]; simp [Nat.zero_sub, rewriteSub]
    | succ f =>
      cases s with
      | nil =>
        rw [rewriteSub_nil] at hpre
        exact absurd hpre (by simp)
      | cons c cs =>
        cases hm : m (c :: cs) with
        | some rk =>
          obtain ⟨r, k⟩ := rk
          obtain ⟨rc, rt, hr, hrc⟩ := hrepl _ _ _ hm
          rw [show rewriteSub m (f + 1) (c :: cs) = r ++ rewriteSub m f (List.drop k cs) by
            simp [rewriteSub, hm]] at hpre
          rw [hr] at hpre
          have hww : w₀ = rc := by
            obtain ⟨t, ht⟩ := hpre
            have h' := congrArg List.head? ht
            simpa using h'
          obtain ⟨hw1, hw2⟩ := hok w₀ (List.mem_cons_self _ _)
          rcases hrc with h | h
          · rw [← hww] at h; rw [hw1] at h; cases h
          · rw [← hww] at h; exact absurd h hw2
        | none =>
          rw [show rewriteSub m (f + 1) (c :: cs) = c :: rewriteSub m f cs by
            simp [rewriteSub, hm]] at hpre
          rw [List.cons_prefix_cons] at hpre
          obtain ⟨rfl, hpre'⟩ := hpre
          obtain ⟨h1, h2⟩ := ih (fun d hd => hok d (List.mem_cons_of_mem _ hd)) f cs hpre'
          constructor
          · rw [List.cons_prefix_cons]; exact ⟨rfl, h1⟩
          · rw [show rewriteSub m (f + 1) (w₀ :: cs) = w₀ :: rewriteSub m f cs by
              simp [rewriteSub, hm]]
            rw [h2]
            simp [Nat.succ_sub_succ]

theorem okChar_of_isDigit {c : Char} (hd : c.isDigit = true) : okChar c := by
  constructor
  · by_contra h
    have h' : isWs c = true := by revert h; cases isWs c <;> simp
    simp only [isWs, Bool.or_eq_true, decide_eq_true_eq] at h'
    rcases h' with ((((rfl | rfl) | rfl) | rfl) | rfl) | rfl <;> exact absurd hd (by decide)
  · intro hc; subst hc; simp [Char.isDigit] at hd

theorem head?_append_left {l l' : Str} (h : l ≠ []) : (l ++ l').head? = l.head? := by
  cases l with
  | nil => simp at h
  | cons a t => simp

theorem head_dropWhile_false (p : Char → Bool) (l : Str) (c : Char)
    (h : (List.dropWhile p l).head? = some c) : p c = false := by
  induction l with
  | nil => simp [List.dropWhile] at h
  | cons a t ih =>
    rw [List.dropWhile_cons] at h
    split at h
    · exact ih h
    · simp_all

theorem drop_suffix_drop_one {l : Str} {i : Nat} (hi : 1 ≤ i) :
    List.drop i l <:+ List.drop 1 l := by
  have : List.drop i l = List.drop (i - 1) (List.drop 1 l) := by
    rw [List.drop_drop]; congr 1; omega
  rw [this]; exact List.drop_suffix _ _

theorem mem_of_head? {x : Str} {c : Char} (h : x.head? = some c) : c ∈ x := by
  cases x with
  | nil => simp at h
  | cons a t => simp at h; subst h; exact List.mem_cons_self _ _

/-- A matcher firing only on whitespace or backslash heads cannot fire on an
`okChar` head. -/
theorem nofire_of_okHead (m : Str → Option (Str × Nat))
    (hfire : ∀ s r k, m s = some (r, k) → ∃ c t, s = c :: t ∧ (isWs c = true ∨ c = '\\'))
    (s : Str) (h : ∀ c, s.head? = some c → okChar c) : m s = none := by
  cases hm : m s with
  | none => rfl
  | some rk =>
    obtain ⟨r, k⟩ := rk
    obtain ⟨c, t, rfl, hc⟩ := hfire _ _ _ hm
    obtain ⟨h1, h2⟩ := h c rfl
    rcases hc with hc | hc
    · rw [h1] at hc; cases hc
    · exact absurd hc h2

/-! ### Matcher structure lemmas -/

theorem matchTokWs_some {tok s r : Str} {k : Nat} (htok : tok ≠ [])
    (h : matchTokWs tok s = some (r, k)) :
    r = tok ++ [' '] ∧
    ∃ W rest, s = tok ++ (W ++ rest) ∧ (∀ c ∈ W, isWs c = true) ∧
      k + 1 = tok.length + W.length ∧ List.drop (k + 1) s = rest := by
  unfold matchTokWs at h
  split at h
  case isTrue hsw =>
    simp only [Option.some.injEq, Prod.mk.injEq] at h
    obtain ⟨hr, hk⟩ := h
    obtain ⟨u, hu⟩ := (startsWith_iff tok s).mp hsw
    have hdrop : List.drop tok.length s = u := by rw [← hu]; exact List.drop_left _ _
    refine ⟨hr.symm, List.takeWhile isWs u, List.dropWhile isWs u, ?_, ?_, ?_, ?_⟩
    · rw [List.takeWhile_append_dropWhile, hu]
    · exact fun c hc => List.mem_takeWhile_imp hc
    · rw [← hk]
      have : wsLen (List.drop tok.length s) = (List.takeWhile isWs u).length := by
        rw [hdrop]; rfl
      rw [this]
      have : 1 ≤ tok.length := List.length_pos.mpr htok
      omega
    · have hk1 : k + 1 = tok.length + (List.takeWhile isWs u).length := by
        rw [← hk]
        have hlen : wsLen (List.drop tok.length s) = (List.takeWhile isWs u).length := by
          rw [hdrop]; rfl
        rw [hlen]
        have : 1 ≤ tok.length := List.length_pos.mpr htok
        omega
      rw [hk1, ← hu]
      rw [show tok.length + (List.takeWhile isWs u).length =
          (tok ++ List.takeWhile isWs u).length by simp]
      conv_lhs =>
        rw [show tok ++ u = (tok ++ List.takeWhile isWs u) ++ List.dropWhile isWs u by
          rw [List.append_assoc, List.takeWhile_append_dropWhile]]
      rw [List.drop_left]
  case isFalse => cases h

theorem drop_eq_of_append {x y : Str} {n : Nat} (hn : n = x.length) :
    List.drop n (x ++ y) = y := by
  subst hn; exact List.drop_left _ _

theorem matchWsTokWs_some {tok s r : Str} {k : Nat} (htok : tok ≠ [])
    (h : matchWsTokWs tok s = some (r, k)) :
    r = ' ' :: tok ++ [' '] ∧
    ∃ W1 W2 rest, s = W1 ++ (tok ++ (W2 ++ rest)) ∧
      (∀ c ∈ W1, isWs c = true) ∧ (∀ c ∈ W2, isWs c = true) ∧
      k + 1 = W1.length + tok.length + W2.length ∧ List.drop (k + 1) s = rest := by
  simp only [matchWsTokWs] at h
  split at h
  case isTrue hsw =>
    simp only [Option.some.injEq, Prod.mk.injEq] at h
    obtain ⟨hr, hk⟩ := h
    have hdw : List.drop (wsLen s) s = List.dropWhile isWs s := drop_length_takeWhile isWs s
    rw [hdw] at hsw
    obtain ⟨u, hu⟩ := (startsWith_iff tok _).mp hsw
    have hs : s = List.takeWhile isWs s ++ (tok ++ u) := by
      rw [hu, List.takeWhile_append_dropWhile]
    have hdrop2 : List.drop tok.length (List.drop (wsLen s) s) = u := by
      rw [hdw, ← hu]; exact List.drop_left _ _
    refine ⟨hr.symm, List.takeWhile isWs s, List.takeWhile isWs u, List.dropWhile isWs u,
      ?_, ?_, ?_, ?_, ?_⟩
    · rw [← List.takeWhile_append_dropWhile isWs u] at hu
      rw [hu, List.takeWhile_append_dropWhile]
    · exact fun c hc => List.mem_takeWhile_imp hc
    · exact fun c hc => List.mem_takeWhile_imp hc
    · rw [← hk, hdrop2]
      have h1 : 1 ≤ tok.length := List.length_pos.mpr htok
      have : wsLen s = (List.takeWhile isWs s).length := rfl
      rw [this]
      have : wsLen u = (List.takeWhile isWs u).length := rfl
      rw [this]
      omega
    · have hk1 : k + 1 = (List.takeWhile isWs s).length + tok.length +
          (List.takeWhile isWs u).length := by
        rw [← hk, hdrop2]
        have h1 : 1 ≤ tok.length := List.length_pos.mpr htok
        have e1 : wsLen s = (List.takeWhile isWs s).length := rfl
        have e2 : wsLen u = (List.takeWhile isWs u).length := rfl
        rw [e1, e2]; omega
      have hs2 : s = (List.takeWhile isWs s ++ tok ++ List.takeWhile isWs u) ++
          List.dropWhile isWs u := by
        conv_lhs => rw [hs]
        conv_lhs => rw [show u = List.takeWhile isWs u ++ List.dropWhile isWs u from
          (List.takeWhile_append_dropWhile isWs u).symm]
        simp [List.append_assoc]
      conv_lhs => rw [hs2]
      rw [hk1]
      exact drop_eq_of_append (by simp; omega)
  case isFalse => cases h

theorem matchWsRun_some {s r : Str} {k : Nat} (h : matchWsRun s = some (r, k)) :
    r = [' '] ∧
    ∃ W rest, s = W ++ rest ∧ W ≠ [] ∧ (∀ c ∈ W, isWs c = true) ∧
      (∀ c, rest.head? = some c → isWs c = false) ∧
      k + 1 = W.length ∧ List.drop (k + 1) s = rest := by
  cases s with
  | nil => simp [matchWsRun] at h
  | cons c cs =>
    simp only [matchWsRun] at h
    split at h
    case isTrue hws =>
      simp only [Option.some.injEq, Prod.mk.injEq] at h
      obtain ⟨hr, hk⟩ := h
      have hW : List.takeWhile isWs (c :: cs) = c :: List.takeWhile isWs cs := by
        rw [List.takeWhile_cons, if_pos hws]
      have hWne : List.takeWhile isWs (c :: cs) ≠ [] := by rw [hW]; simp
      have hWpos : 1 ≤ (List.takeWhile isWs (c :: cs)).length := List.length_pos.mpr hWne
      refine ⟨hr.symm, List.takeWhile isWs (c :: cs), List.dropWhile isWs (c :: cs),
        (List.takeWhile_append_dropWhile isWs _).symm, hWne,
        (fun d hd => List.mem_takeWhile_imp hd),
        (fun d hd => head_dropWhile_false _ _ _ hd), ?_, ?_⟩
      · rw [← hk]
        have : wsLen (c :: cs) = (List.takeWhile isWs (c :: cs)).length := rfl
        rw [this]; omega
      · have hk1 : k + 1 = (List.takeWhile isWs (c :: cs)).length := by
          rw [← hk]
          have : wsLen (c :: cs) = (List.takeWhile isWs (c :: cs)).length := rfl
          rw [this]; omega
        rw [hk1]
        exact drop_length_takeWhile isWs (c :: cs)
    case isFalse => cases h

theorem matchTokWsBrace_some {tok s r : Str} {k : Nat}
    (h : matchTokWsBrace tok s = some (r, k)) :
    r = tok ++ [lb] ∧
    ∃ W rest, s = tok ++ (W ++ lb :: rest) ∧ W ≠ [] ∧ (∀ c ∈ W, isWs c = true) ∧
      k + 1 = tok.length + W.length + 1 ∧ List.drop (k + 1) s = rest := by
  simp only [matchTokWsBrace] at h
  split at h
  case isTrue hsw =>
    split at h
    case isTrue hw =>
      split at h
      case isTrue hlb =>
        simp only [Option.some.injEq, Prod.mk.injEq] at h
        obtain ⟨hr, hk⟩ := h
        obtain ⟨u, hu⟩ := (startsWith_iff tok s).mp hsw
        have hdrop : List.drop tok.length s = u := by rw [← hu]; exact List.drop_left _ _
        rw [hdrop] at hw hlb hk
        have hdw : List.drop (wsLen u) u = List.dropWhile isWs u := drop_length_takeWhile isWs u
        rw [hdw] at hlb
        obtain ⟨v, hv⟩ := (startsWith_iff [lb] _).mp hlb
        have hWne : List.takeWhile isWs u ≠ [] := by
          intro hnil
          have : wsLen u = 0 := by rw [wsLen, hnil]; rfl
          omega
        refine ⟨hr.symm, List.takeWhile isWs u, v, ?_, hWne,
          (fun d hd => List.mem_takeWhile_imp hd), ?_, ?_⟩
        · rw [← hu]
          conv_lhs => rw [← List.takeWhile_append_dropWhile isWs u]
          rw [← hv]
          simp
        · rw [← hk]
          have : wsLen u = (List.takeWhile isWs u).length := rfl
          omega
        · have hk1 : k + 1 = tok.length + (List.takeWhile isWs u).length + 1 := by
            rw [← hk]
            have : wsLen u = (List.takeWhile isWs u).length := rfl
            omega
          rw [hk1]
          have hs2 : s = (tok ++ List.takeWhile isWs u ++ [lb]) ++ v := by
            rw [← hu]
            conv_lhs => rw [← List.takeWhile_append_dropWhile isWs u]
            rw [← hv]
            simp
          conv_lhs => rw [hs2]
          exact drop_eq_of_append (by simp; omega)
      case isFalse => cases h
    case isFalse => cases h
  case isFalse => cases h

theorem matchGroupNl_some {tok s r : Str} {k : Nat}
    (h : matchGroupNl tok s = some (r, k)) :
    ∃ body W rest, r = tok ++ body ++ [rb, ' '] ∧
      s = tok ++ (body ++ rb :: (W ++ rest)) ∧
      (∀ c ∈ body, c ≠ rb) ∧ (∀ c ∈ W, isWs c = true) ∧ W ≠ [] ∧
      k + 1 = tok.length + body.length + 1 + W.length ∧
      List.drop (k + 1) s = rest := by
  simp only [matchGroupNl] at h
  split at h
  case isTrue hsw =>
    obtain ⟨u, hu⟩ := (startsWith_iff tok s).mp hsw
    have hdropu : List.drop tok.length s = u := by rw [← hu]; exact List.drop_left _ _
    rw [hdropu, drop_length_takeWhile] at h
    cases hdw : List.dropWhile notRb u with
    | nil => rw [hdw] at h; cases h
    | cons c r3 =>
      rw [hdw] at h
      split at h
      next c2 r32 hc =>
        injection hc with hc1 hc2
        subst hc1
        subst hc2
        split at h
        next hrb =>
          split at h
          next hnl =>
            simp only [Option.some.injEq, Prod.mk.injEq] at h
            obtain ⟨hr, hk⟩ := h
            subst hrb
            have hu2 : u = List.takeWhile notRb u ++ rb :: r3 := by
              rw [← hdw, List.takeWhile_append_dropWhile]
            have hr3 : r3 = List.takeWhile isWs r3 ++ List.dropWhile isWs r3 :=
              (List.takeWhile_append_dropWhile isWs r3).symm
            have hWne : List.takeWhile isWs r3 ≠ [] := List.ne_nil_of_mem hnl
            refine ⟨List.takeWhile notRb u, List.takeWhile isWs r3, List.dropWhile isWs r3,
              ?_, ?_, ?_, ?_, hWne, ?_, ?_⟩
            · rw [← hr]
            · rw [← hu]
              congr 1
              conv_lhs => rw [hu2]
              congr 1
              rw [← hr3]
            · intro d hd
              have := List.mem_takeWhile_imp hd
              simpa [notRb] using this
            · exact fun d hd => List.mem_takeWhile_imp hd
            · rw [← hk]
              omega
            · have hk1 : k + 1 = tok.length + (List.takeWhile notRb u).length + 1 +
                  (List.takeWhile isWs r3).length := by
                rw [← hk]; omega
              have hs2 : s = (tok ++ List.takeWhile notRb u ++ [rb] ++
                  List.takeWhile isWs r3) ++ List.dropWhile isWs r3 := by
                rw [← hu]
                conv_lhs => rw [hu2]
                conv_lhs => rw [hr3]
                simp
              conv_lhs => rw [hs2]
              rw [hk1]
              exact drop_eq_of_append (by simp; omega)
          next => cases h
        next => cases h
      next hc => cases h
  case isFalse => cases h

theorem drop_wsLen (l : Str) : List.drop (wsLen l) l = List.dropWhile isWs l :=
  drop_length_takeWhile isWs l

theorem matchDelAddBegin_some {s r : Str} {k : Nat} (h : matchDelAddBegin s = some (r, k)) :
    r = bsBeginThebib ∧
    ∃ W1 W2 z rest, s = difDelendTok ++ (W1 ++ (difAddbeginTok ++ (W2 ++ z))) ∧
      (∀ c ∈ W1, isWs c = true) ∧ (∀ c ∈ W2, isWs c = true) ∧
      ((z = bsBeginThebib ++ rest ∧ k + 1 = 45 + W1.length + W2.length) ∨
       (z = beginThebib ++ rest ∧ k + 1 = 44 + W1.length + W2.length)) ∧
      List.drop (k + 1) s = rest := by
  have l1 : difDelendTok.length = 10 := by decide
  have l2 : difAddbeginTok.length = 12 := by decide
  have l3 : bsBeginThebib.length = 23 := by decide
  have l4 : beginThebib.length = 22 := by decide
  simp only [matchDelAddBegin] at h
  split at h
  case isTrue h1 =>
    obtain ⟨u1, hu1⟩ := (startsWith_iff difDelendTok s).mp h1
    have hd10 : List.drop 10 s = u1 := by
      rw [← hu1, ← l1]; exact List.drop_left _ _
    rw [hd10, drop_wsLen] at h
    split at h
    case isTrue h2 =>
      obtain ⟨u2, hu2⟩ := (startsWith_iff difAddbeginTok _).mp h2
      have hd12 : List.drop 12 (List.dropWhile isWs u1) = u2 := by
        rw [← hu2, ← l2]; exact List.drop_left _ _
      rw [hd12, drop_wsLen] at h
      have hs : s = difDelendTok ++ (List.takeWhile isWs u1 ++ (difAddbeginTok ++
          (List.takeWhile isWs u2 ++ List.dropWhile isWs u2))) := by
        rw [← hu1]
        congr 1
        conv_lhs => rw [← List.takeWhile_append_dropWhile isWs u1]
        congr 1
        rw [← hu2]
        congr 1
        exact (List.takeWhile_append_dropWhile isWs u2).symm
      have ew1 : wsLen u1 = (List.takeWhile isWs u1).length := rfl
      have ew2 : wsLen u2 = (List.takeWhile isWs u2).length := rfl
      split at h
      case isTrue h3 =>
        simp only [Option.some.injEq, Prod.mk.injEq] at h
        obtain ⟨hr, hk⟩ := h
        obtain ⟨rest, hrest⟩ := (startsWith_iff bsBeginThebib _).mp h3
        have hk1 : k + 1 = 45 + (List.takeWhile isWs u1).length +
            (List.takeWhile isWs u2).length := by
          rw [← hk, ew1, ew2]; omega
        refine ⟨hr.symm, List.takeWhile isWs u1, List.takeWhile isWs u2,
          List.dropWhile isWs u2, rest, hs,
          (fun c hc => List.mem_takeWhile_imp hc), (fun c hc => List.mem_takeWhile_imp hc),
          Or.inl ⟨hrest.symm, hk1⟩, ?_⟩
        have hs2 : s = (difDelendTok ++ List.takeWhile isWs u1 ++ difAddbeginTok ++
            List.takeWhile isWs u2 ++ bsBeginThebib) ++ rest := by
          rw [hs, ← hrest]; simp
        conv_lhs => rw [hs2]
        rw [hk1]
        exact drop_eq_of_append (by simp [l1, l2, l3]; omega)
      case isFalse h3 =>
        split at h
        case isTrue h4 =>
          simp only [Option.some.injEq, Prod.mk.injEq] at h
          obtain ⟨hr, hk⟩ := h
          obtain ⟨rest, hrest⟩ := (startsWith_iff beginThebib _).mp h4
          have hk1 : k + 1 = 44 + (List.takeWhile isWs u1).length +
              (List.takeWhile isWs u2).length := by
            rw [← hk, ew1, ew2]; omega
          refine ⟨hr.symm, List.takeWhile isWs u1, List.takeWhile isWs u2,
            List.dropWhile isWs u2, rest, hs,
            (fun c hc => List.mem_takeWhile_imp hc), (fun c hc => List.mem_takeWhile_imp hc),
            Or.inr ⟨hrest.symm, hk1⟩, ?_⟩
          have hs2 : s = (difDelendTok ++ List.takeWhile isWs u1 ++ difAddbeginTok ++
              List.takeWhile isWs u2 ++ beginThebib) ++ rest := by
            rw [hs, ← hrest]; simp
          conv_lhs => rw [hs2]
          rw [hk1]
          exact drop_eq_of_append (by simp [l1, l2, l4]; omega)
        case isFalse => cases h
    case isFalse => cases h
  case isFalse => cases h

/-! ### Fire-head and replacement-head facts -/

theorem fireHead_delAddBegin :
    ∀ s r k, matchDelAddBegin s = some (r, k) →
      ∃ c t, s = c :: t ∧ (isWs c = true ∨ c = '\\') := by
  intro s r k h
  obtain ⟨_, W1, W2, z, rest, hs, _⟩ := matchDelAddBegin_some h
  exact ⟨'\\', "DIFdelend".toList ++ (W1 ++ (difAddbeginTok ++ (W2 ++ z))),
    by rw [hs]; rfl, Or.inr rfl⟩

theorem fireHead_tokWs {tok : Str} {tt : Str} (htok : tok = '\\' :: tt) :
    ∀ s r k, matchTokWs tok s = some (r, k) →
      ∃ c t, s = c :: t ∧ (isWs c = true ∨ c = '\\') := by
  intro s r k h
  have hne : tok ≠ [] := by rw [htok]; simp
  obtain ⟨_, W, rest, hs, _⟩ := matchTokWs_some hne h
  rw [htok] at hs
  exact ⟨'\\', tt ++ (W ++ rest), by rw [hs]; rfl, Or.inr rfl⟩

theorem fireHead_wsTokWs {tok : Str} {tt : Str} (htok : tok = '\\' :: tt) :
    ∀ s r k, matchWsTokWs tok s = some (r, k) →
      ∃ c t, s = c :: t ∧ (isWs c = true ∨ c = '\\') := by
  intro s r k h
  have hne : tok ≠ [] := by rw [htok]; simp
  obtain ⟨_, W1, W2, rest, hs, hW1, _⟩ := matchWsTokWs_some hne h
  cases W1 with
  | nil =>
    rw [htok] at hs
    exact ⟨'\\', tt ++ (W2 ++ rest), by rw [hs]; rfl, Or.inr rfl⟩
  | cons w ws =>
    exact ⟨w, ws ++ (tok ++ (W2 ++ rest)), by rw [hs]; rfl,
      Or.inl (hW1 w (List.mem_cons_self _ _))⟩

theorem fireHead_groupNl {tok : Str} {tt : Str} (htok : tok = '\\' :: tt) :
    ∀ s r k, matchGroupNl tok s = some (r, k) →
      ∃ c t, s = c :: t ∧ (isWs c = true ∨ c = '\\') := by
  intro s r k h
  obtain ⟨body, W, rest, _, hs, _⟩ := matchGroupNl_some h
  rw [htok] at hs
  exact ⟨'\\', tt ++ (body ++ rb :: (W ++ rest)), by rw [hs]; rfl, Or.inr rfl⟩

theorem fireHead_wsRun :
    ∀ s r k, matchWsRun s = some (r, k) →
      ∃ c t, s = c :: t ∧ (isWs c = true ∨ c = '\\') := by
  intro s r k h
  obtain ⟨_, W, rest, hs, hWne, hW, _⟩ := matchWsRun_some h
  cases W with
  | nil => exact absurd rfl hWne
  | cons w ws =>
    exact ⟨w, ws ++ rest, by rw [hs]; rfl, Or.inl (hW w (List.mem_cons_self _ _))⟩

theorem fireHead_tokWsBrace {tok : Str} {tt : Str} (htok : tok = '\\' :: tt) :
    ∀ s r k, matchTokWsBrace tok s = some (r, k) →
      ∃ c t, s = c :: t ∧ (isWs c = true ∨ c = '\\') := by
  intro s r k h
  obtain ⟨_, W, rest, hs, _⟩ := matchTokWsBrace_some h
  rw [htok] at hs
  exact ⟨'\\', tt ++ (W ++ lb :: rest), by rw [hs]; rfl, Or.inr rfl⟩

theorem replHead_delAddBegin :
    ∀ s r k, matchDelAddBegin s = some (r, k) →
      ∃ c t, r = c :: t ∧ (isWs c = true ∨ c = '\\') := by
  intro s r k h
  obtain ⟨hr, _⟩ := matchDelAddBegin_some h
  exact ⟨'\\', beginThebib, by rw [hr]; rfl, Or.inr rfl⟩

theorem replHead_tokWs {tok : Str} {tt : Str} (htok : tok = '\\' :: tt) :
    ∀ s r k, matchTokWs tok s = some (r, k) →
      ∃ c t, r = c :: t ∧ (isWs c = true ∨ c = '\\') := by
  intro s r k h
  have hne : tok ≠ [] := by rw [htok]; simp
  obtain ⟨hr, _⟩ := matchTokWs_some hne h
  rw [htok] at hr
  exact ⟨'\\', tt ++ [' '], by rw [hr]; rfl, Or.inr rfl⟩

theorem replHead_wsTokWs {tok : Str} (htok : tok ≠ []) :
    ∀ s r k, matchWsTokWs tok s = some (r, k) →
      ∃ c t, r = c :: t ∧ (isWs c = true ∨ c = '\\') := by
  intro s r k h
  obtain ⟨hr, _⟩ := matchWsTokWs_some htok h
  exact ⟨' ', tok ++ [' '], by rw [hr]; rfl, Or.inl (by decide)⟩

theorem replHead_groupNl {tok : Str} {tt : Str} (htok : tok = '\\' :: tt) :
    ∀ s r k, matchGroupNl tok s = some (r, k) →
      ∃ c t, r = c :: t ∧ (isWs c = true ∨ c = '\\') := by
  intro s r k h
  obtain ⟨body, W, rest, hr, _⟩ := matchGroupNl_some h
  rw [htok] at hr
  exact ⟨'\\', (tt ++ body) ++ [rb, ' '], by rw [hr]; simp, Or.inr rfl⟩

theorem replHead_wsRun :
    ∀ s r k, matchWsRun s = some (r, k) →
      ∃ c t, r = c :: t ∧ (isWs c = true ∨ c = '\\') := by
  intro s r k h
  obtain ⟨hr, _⟩ := matchWsRun_some h
  exact ⟨' ', [], by rw [hr], Or.inl (by decide)⟩

theorem replHead_tokWsBrace {tok : Str} {tt : Str} (htok : tok = '\\' :: tt) :
    ∀ s r k, matchTokWsBrace tok s = some (r, k) →
      ∃ c t, r = c :: t ∧ (isWs c = true ∨ c = '\\') := by
  intro s r k h
  obtain ⟨hr, _⟩ := matchTokWsBrace_some h
  rw [htok] at hr
  exact ⟨'\\', tt ++ [lb], by rw [hr]; rfl, Or.inr rfl⟩

/--
Infix preservation through one `re.sub` pass.  `hnofire`: the matcher never
fires at any position inside an occurrence of `p`.  `hcross`: when the matcher
fires on a string containing `p`, its span either stays strictly left of the
occurrence, or it ends `j` characters into the occurrence while the
replacement re-creates those first `j` characters.
-/
theorem rewriteSub_keeps_infix (m : Str → Option (Str × Nat)) (p : Str) (hp : p ≠ [])
    (hnofire : ∀ i b, i < p.length → m (List.drop i p ++ b) = none)
    (hcross : ∀ s r k a b, m s = some (r, k) → s = a ++ p ++ b →
      k + 1 ≤ a.length ∨
      ∃ r' j, j ≤ p.length ∧ r = r' ++ List.take j p ∧
        List.drop (k + 1) s = List.drop j p ++ b) :
    ∀ fuel s, p <:+: s → p <:+: rewriteSub m fuel s := by
  intro fuel
  induction fuel with
  | zero => intro s h; exact h
  | succ f ih =>
    intro s h
    cases s with
    | nil => simpa [rewriteSub_nil] using h
    | cons c cs =>
      obtain ⟨a, b, hab⟩ := h
      cases hm : m (c :: cs) with
      | none =>
        rw [show rewriteSub m (f + 1) (c :: cs) = c :: rewriteSub m f cs by
          simp [rewriteSub, hm]]
        cases a with
        | nil =>
          simp only [List.nil_append] at hab
          cases p with
          | nil => exact absurd rfl hp
          | cons p₀ p' =>
            have hc : p₀ = c ∧ p' ++ b = cs := by
              have := hab
              rw [List.cons_append] at this
              exact ⟨by injection this, by injection this⟩
            obtain ⟨rfl, hcs⟩ := hc
            have hcopy := rewriteSub_copy m p' b
              (fun i hi => by
                have := hnofire (i + 1) b (by simpa using Nat.succ_lt_succ hi)
                simpa using this) f
            rw [← hcs, hcopy]
            exact ⟨[], rewriteSub m (f - p'.length) b, by simp⟩
        | cons a₀ a' =>
          have hc : a₀ = c ∧ a' ++ p ++ b = cs := by
            have := hab
            rw [List.cons_append, List.cons_append] at this
            exact ⟨by injection this, by injection this⟩
          obtain ⟨rfl, hcs⟩ := hc
          exact List.infix_cons (ih cs ⟨a', b, hcs⟩)
      | some rk =>
        obtain ⟨r, k⟩ := rk
        rw [show rewriteSub m (f + 1) (c :: cs) = r ++ rewriteSub m f (List.drop k cs) by
          simp [rewriteSub, hm]]
        have hdropk : List.drop k cs = List.drop (k + 1) (c :: cs) := rfl
        rcases hcross _ _ _ _ _ hm hab.symm with hle | ⟨r', j, hj, hr, hdrop⟩
        · have hocc : p <:+: List.drop k cs := by
            rw [hdropk, ← hab]
            rw [List.append_assoc, List.drop_append_of_le_length hle]
            exact ⟨List.drop (k + 1) a, b, by rw [List.append_assoc]⟩
          exact (ih _ hocc).trans (List.suffix_append r _).isInfix
        · have hstep : rewriteSub m f (List.drop k cs) =
              List.drop j p ++ rewriteSub m (f - (List.drop j p).length) b := by
            rw [hdropk, hdrop]
            exact rewriteSub_copy m (List.drop j p) b
              (fun i hi => by
                rw [List.drop_drop]
                have hlt : j + i < p.length := by
                  rw [List.length_drop] at hi; omega
                exact hnofire (j + i) b hlt) f
          rw [hstep, hr]
          refine ⟨r', rewriteSub m (f - (List.drop j p).length) b, ?_⟩
          calc r' ++ p ++ rewriteSub m (f - (List.drop j p).length) b
              = r' ++ (List.take j p ++ List.drop j p) ++
                  rewriteSub m (f - (List.drop j p).length) b := by
                rw [List.take_append_drop]
            _ = r' ++ List.take j p ++ (List.drop j p ++
                  rewriteSub m (f - (List.drop j p).length) b) := by
                simp only [List.append_assoc]

/-! ### The bibliography count marker pattern -/

/-- The marker `\begin{thebibliography}{n}` for a digit string `n`. -/
def numMarker (n : Str) : Str := beginMarkerPre ++ (n ++ [rb])

/-- A nonempty string of decimal digits. -/
def digitsOnly (n : Str) : Prop := n ≠ [] ∧ ∀ c ∈ n, c.isDigit = true

/-- The marker without its leading backslash. -/
def markerTail (n : Str) : Str := beginThebib ++ lb :: (n ++ [rb])

theorem numMarker_eq (n : Str) : numMarker n = '\\' :: markerTail n := by
  simp [numMarker, markerTail, beginMarkerPre, bsBeginThebib]

instance (c : Char) : Decidable (okChar c) := by
  unfold okChar; infer_instance

theorem markerTail_ok {n : Str} (hn : digitsOnly n) : ∀ c ∈ markerTail n, okChar c := by
  intro c hc
  simp only [markerTail, List.mem_append, List.mem_cons, List.mem_singleton,
    List.not_mem_nil, or_false] at hc
  rcases hc with hc | rfl | hc | rfl
  · revert c; decide
  · decide
  · exact okChar_of_isDigit (hn.2 c hc)
  · decide

theorem numMarker_ne_nil (n : Str) : numMarker n ≠ [] := by
  rw [numMarker_eq]; simp

/-- Occurrence-versus-segment decomposition: an occurrence of `p₀ :: ps`
inside `x ++ y` either starts at or after the end of `x`, or starts inside
`x`. -/
theorem occ_in_append {x y a b ps : Str} {p₀ : Char}
    (h : x ++ y = a ++ ((p₀ :: ps) ++ b)) :
    (∃ a₂, a = x ++ a₂ ∧ y = a₂ ++ ((p₀ :: ps) ++ b)) ∨
    (∃ x₂, x = a ++ p₀ :: x₂ ∧ ps ++ b = x₂ ++ y) := by
  rcases List.append_eq_append_iff.mp h with ⟨a', ha1, ha2⟩ | ⟨c', hc1, hc2⟩
  · exact Or.inl ⟨a', ha1, ha2⟩
  · cases c' with
    | nil =>
      left
      refine ⟨[], by simp [hc1], ?_⟩
      simp only [List.nil_append] at hc2
      simp [← hc2]
    | cons c x₂ =>
      right
      simp only [List.cons_append] at hc2
      have h1 : p₀ = c := by injection hc2
      have h2 : ps ++ b = x₂ ++ y := by injection hc2
      subst h1
      exact ⟨x₂, hc1, h2⟩

theorem no_occ_in_ws {W a x₂ : Str} (hW : ∀ c ∈ W, isWs c = true)
    (h : W = a ++ '\\' :: x₂) : False := by
  have : isWs '\\' = true := hW '\\' (by rw [h]; simp)
  simp [isWs] at this

theorem bs_head_only {tok a x₂ : Str} (htok : '\\' ∉ List.drop 1 tok)
    (h : tok = a ++ '\\' :: x₂) : a = [] := by
  cases a with
  | nil => rfl
  | cons a₀ a' =>
    exfalso
    apply htok
    rw [h]
    simp

theorem wsLen_cons_false {c : Char} (hc : isWs c = false) (t : Str) :
    wsLen (c :: t) = 0 := by
  simp [wsLen, List.takeWhile_cons, hc]

theorem startsWith_self_append (x y : Str) : startsWith x (x ++ y) = true :=
  (startsWith_iff x (x ++ y)).mpr ⟨y, rfl⟩

theorem nm_split (n b : Str) :
    numMarker n ++ b = beginMarkerPre ++ ((n ++ [rb]) ++ b) := by
  simp [numMarker]

theorem hm0_delAddBegin (n b : Str) : matchDelAddBegin (numMarker n ++ b) = none := by
  have h : startsWith difDelendTok (numMarker n ++ b) = false := by
    rw [nm_split, startsWith_append_of_le _ _ _ (by decide)]
    decide
  simp [matchDelAddBegin, h]

theorem hm0_tokWs {tok : Str} (n b : Str) (h : startsWith tok beginMarkerPre = false)
    (hlen : tok.length ≤ beginMarkerPre.length) :
    matchTokWs tok (numMarker n ++ b) = none := by
  have h2 : startsWith tok (numMarker n ++ b) = false := by
    rw [nm_split, startsWith_append_of_le _ _ _ hlen]; exact h
  simp [matchTokWs, h2]

theorem nm_cons (n b : Str) : numMarker n ++ b = '\\' :: (markerTail n ++ b) := by
  rw [numMarker_eq]; rfl

theorem wsLen_nm (n b : Str) : wsLen (numMarker n ++ b) = 0 := by
  rw [nm_cons]
  exact wsLen_cons_false (by decide) _

theorem hm0_wsTokWs {tok : Str} (n b : Str) (h : startsWith tok beginMarkerPre = false)
    (hlen : tok.length ≤ beginMarkerPre.length) :
    matchWsTokWs tok (numMarker n ++ b) = none := by
  have h2 : startsWith tok (numMarker n ++ b) = false := by
    rw [nm_split, startsWith_append_of_le _ _ _ hlen]; exact h
  simp [matchWsTokWs, wsLen_nm, h2]

theorem hm0_groupNl {tok : Str} (n b : Str) (h : startsWith tok beginMarkerPre = false)
    (hlen : tok.length ≤ beginMarkerPre.length) :
    matchGroupNl tok (numMarker n ++ b) = none := by
  have h2 : startsWith tok (numMarker n ++ b) = false := by
    rw [nm_split, startsWith_append_of_le _ _ _ hlen]; exact h
  simp [matchGroupNl, h2]

theorem hm0_wsRun (n b : Str) : matchWsRun (numMarker n ++ b) = none := by
  rw [nm_cons]
  simp [matchWsRun, show isWs '\\' = false by decide]

theorem tokWsBrace_nofire_nonws {tok : Str} {c : Char} (hc : isWs c = false) (rest : Str) :
    matchTokWsBrace tok (tok ++ (c :: rest)) = none := by
  simp only [matchTokWsBrace, startsWith_self_append, if_true, List.drop_left,
    wsLen_cons_false hc]
  simp

theorem hm0_beginBrace (n b : Str) :
    matchTokWsBrace bsBeginTok (numMarker n ++ b) = none := by
  have hsplit : numMarker n ++ b =
      bsBeginTok ++ (lb :: ("thebibliography".toList ++ rb :: lb :: (n ++ rb :: b))) := by
    simp [numMarker, beginMarkerPre, bsBeginThebib, beginThebib, thebibBraced, bsBeginTok]
  rw [hsplit]
  exact tokWsBrace_nofire_nonws (by decide) _

theorem hm0_endBrace (n b : Str) :
    matchTokWsBrace bsEndTok (numMarker n ++ b) = none := by
  have h2 : startsWith bsEndTok (numMarker n ++ b) = false := by
    rw [nm_split, startsWith_append_of_le _ _ _ (by decide)]
    decide
  simp [matchTokWsBrace, h2]

/-- The matcher never fires at any position strictly inside an occurrence of
the marker. -/
theorem nofire_inside (m : Str → Option (Str × Nat)) {n : Str} (hn : digitsOnly n)
    (hfire : ∀ s r k, m s = some (r, k) → ∃ c t, s = c :: t ∧ (isWs c = true ∨ c = '\\'))
    (hm0 : ∀ b, m (numMarker n ++ b) = none) :
    ∀ i b, i < (numMarker n).length → m (List.drop i (numMarker n) ++ b) = none := by
  intro i b hi
  cases Nat.eq_zero_or_pos i with
  | inl h0 => subst h0; simpa using hm0 b
  | inr hpos =>
    apply nofire_of_okHead m hfire
    intro c hc
    have hne : List.drop i (numMarker n) ≠ [] := by
      intro hnil
      rw [List.drop_eq_nil_iff] at hnil
      omega
    rw [head?_append_left hne] at hc
    have hmem : c ∈ List.drop i (numMarker n) := mem_of_head? hc
    have hsub : List.drop i (numMarker n) <:+ List.drop 1 (numMarker n) :=
      drop_suffix_drop_one hpos
    have hmem2 : c ∈ List.drop 1 (numMarker n) := hsub.sublist.subset hmem
    rw [numMarker_eq] at hmem2
    exact markerTail_ok hn c (by simpa using hmem2)

theorem markerTail_head (n b : Str) : (markerTail n ++ b).head? = some 'b' := by
  rw [markerTail, List.append_assoc, head?_append_left (by decide)]
  decide

/-- Shape of the `hcross` obligation of `rewriteSub_keeps_infix` for the
marker pattern. -/
def CrossOk (m : Str → Option (Str × Nat)) (n : Str) : Prop :=
  ∀ s r k a b, m s = some (r, k) → s = a ++ numMarker n ++ b →
    k + 1 ≤ a.length ∨ ∃ r' j, j ≤ (numMarker n).length ∧
      r = r' ++ List.take j (numMarker n) ∧
      List.drop (k + 1) s = List.drop j (numMarker n) ++ b

theorem hcross_tokWs {tok n : Str}
    (htok : tok ≠ []) (htail : '\\' ∉ List.drop 1 tok)
    (hm0 : ∀ b, matchTokWs tok (numMarker n ++ b) = none) :
    CrossOk (matchTokWs tok) n := by
  intro s r k a b hm hocc
  left
  obtain ⟨hr, W, rest, hs, hW, hk, hdrop⟩ := matchTokWs_some htok hm
  have hocc2 : tok ++ (W ++ rest) = a ++ (('\\' :: markerTail n) ++ b) := by
    rw [← hs, hocc, numMarker_eq]
    simp [List.append_assoc]
  rcases occ_in_append hocc2 with ⟨a₂, ha, hy⟩ | ⟨x₂, hx, _⟩
  · rcases occ_in_append hy with ⟨a₃, ha₂, _⟩ | ⟨x₂, hxW, _⟩
    · rw [ha, ha₂]
      simp only [List.length_append]
      omega
    · exact absurd hxW (fun hh => no_occ_in_ws hW hh)
  · have ha0 : a = [] := bs_head_only htail hx
    subst ha0
    have hnone : matchTokWs tok s = none := by
      rw [hocc]; simpa using hm0 b
    rw [hm] at hnone; cases hnone

theorem hcross_wsRun {n : Str} : CrossOk matchWsRun n := by
  intro s r k a b hm hocc
  left
  obtain ⟨hr, W, rest, hs, hWne, hW, hrh, hk, hdrop⟩ := matchWsRun_some hm
  have hocc2 : W ++ rest = a ++ (('\\' :: markerTail n) ++ b) := by
    rw [← hs, hocc, numMarker_eq]
    simp [List.append_assoc]
  rcases occ_in_append hocc2 with ⟨a₂, ha, _⟩ | ⟨x₂, hxW, _⟩
  · rw [ha]
    simp only [List.length_append]
    omega
  · exact absurd hxW (fun hh => no_occ_in_ws hW hh)

theorem hcross_wsTokWs {tok n : Str}
    (htok : tok ≠ []) (hlen2 : 2 ≤ tok.length) (htail : '\\' ∉ List.drop 1 tok)
    (hhead2 : ∀ c, (List.drop 1 tok).head? = some c → c ≠ 'b') :
    CrossOk (matchWsTokWs tok) n := by
  intro s r k a b hm hocc
  left
  obtain ⟨hr, W1, W2, rest, hs, hW1, hW2, hk, hdrop⟩ := matchWsTokWs_some htok hm
  have hocc2 : W1 ++ (tok ++ (W2 ++ rest)) = a ++ (('\\' :: markerTail n) ++ b) := by
    rw [← hs, hocc, numMarker_eq]
    simp [List.append_assoc]
  rcases occ_in_append hocc2 with ⟨a₂, ha, hy⟩ | ⟨x₂, hxW, _⟩
  · rcases occ_in_append hy with ⟨a₃, ha₂, hy2⟩ | ⟨x₂, hxT, hcont⟩
    · rcases occ_in_append hy2 with ⟨a₄, ha₃, _⟩ | ⟨x₂, hxW2, _⟩
      · rw [ha, ha₂, ha₃]; simp only [List.length_append]; omega
      · exact absurd hxW2 (fun hh => no_occ_in_ws hW2 hh)
    · exfalso
      have ha₂0 : a₂ = [] := bs_head_only htail hxT
      subst ha₂0
      simp only [List.nil_append] at hxT
      have hx₂ : List.drop 1 tok = x₂ := by rw [hxT]; rfl
      have hx₂ne : x₂ ≠ [] := by
        intro hnil
        rw [hxT, hnil] at hlen2
        simp at hlen2
      have hbh := markerTail_head n b
      rw [hcont, head?_append_left hx₂ne] at hbh
      exact hhead2 'b' (by rw [hx₂]; exact hbh) rfl
  · exact absurd hxW (fun hh => no_occ_in_ws hW1 hh)

theorem hcross_tokWsBrace {tok n : Str}
    (htail : '\\' ∉ List.drop 1 tok)
    (hm0 : ∀ b, matchTokWsBrace tok (numMarker n ++ b) = none) :
    CrossOk (matchTokWsBrace tok) n := by
  intro s r k a b hm hocc
  left
  obtain ⟨hr, W, rest, hs, hWne, hW, hk, hdrop⟩ := matchTokWsBrace_some hm
  have hocc2 : tok ++ (W ++ lb :: rest) = a ++ (('\\' :: markerTail n) ++ b) := by
    rw [← hs, hocc, numMarker_eq]
    simp [List.append_assoc]
  rcases occ_in_append hocc2 with ⟨a₂, ha, hy⟩ | ⟨x₂, hxT, _⟩
  · rcases occ_in_append hy with ⟨a₃, ha₂, hy2⟩ | ⟨x₂, hxW, _⟩
    · have hy2' : [lb] ++ rest = a₃ ++ (('\\' :: markerTail n) ++ b) := by simpa using hy2
      rcases occ_in_append hy2' with ⟨a₄, ha₃, _⟩ | ⟨x₂, hxL, _⟩
      · rw [ha, ha₂, ha₃]
        simp only [List.length_append, List.length_singleton]
        omega
      · exfalso
        have hmem : '\\' ∈ [lb] := by rw [hxL]; simp
        exact absurd hmem (by decide)
    · exact absurd hxW (fun hh => no_occ_in_ws hW hh)
  · have ha0 : a = [] := bs_head_only htail hxT
    subst ha0
    have hnone : matchTokWsBrace tok s = none := by
      rw [hocc]; simpa using hm0 b
    rw [hm] at hnone; cases hnone

theorem takeWhile_append_stop {p : Char → Bool} {x : Str} {c : Char}
    (hx : ∀ d ∈ x, p d = true) (hc : p c = false) (y : Str) :
    List.takeWhile p (x ++ c :: y) = x := by
  induction x with
  | nil => simp [List.takeWhile_cons, hc]
  | cons d x' ih =>
    simp only [List.cons_append, List.takeWhile_cons, hx d (List.mem_cons_self _ _), if_true]
    rw [ih (fun e he => hx e (List.mem_cons_of_mem _ he))]

/-- The 21 characters before the first `}` of the marker tail. -/
def mtPre : Str := "begin".toList ++ lb :: "thebibliography".toList

theorem markerTail_split (n b : Str) :
    markerTail n ++ b = mtPre ++ rb :: ((lb :: (n ++ [rb])) ++ b) := by
  simp [markerTail, mtPre, beginThebib, thebibBraced]

theorem hcross_groupNl {tok n : Str}
    (htail : '\\' ∉ List.drop 1 tok)
    (hm0 : ∀ b, matchGroupNl tok (numMarker n ++ b) = none) :
    CrossOk (matchGroupNl tok) n := by
  intro s r k a b hm hocc
  left
  obtain ⟨body, W, rest, hr, hs, hbody, hW, hWne, hk, hdrop⟩ := matchGroupNl_some hm
  have hocc2 : tok ++ (body ++ rb :: (W ++ rest)) = a ++ (('\\' :: markerTail n) ++ b) := by
    rw [← hs, hocc, numMarker_eq]
    simp [List.append_assoc]
  rcases occ_in_append hocc2 with ⟨a₂, ha, hy⟩ | ⟨x₂, hxT, _⟩
  · rcases occ_in_append hy with ⟨a₃, ha₂, hy2⟩ | ⟨x₂, hxB, hcontB⟩
    · have hy2' : [rb] ++ (W ++ rest) = a₃ ++ (('\\' :: markerTail n) ++ b) := by
        simpa using hy2
      rcases occ_in_append hy2' with ⟨a₄, ha₃, hy3⟩ | ⟨x₂, hxR, _⟩
      · rcases occ_in_append hy3 with ⟨a₅, ha₄, _⟩ | ⟨x₂, hxW, _⟩
        · rw [ha, ha₂, ha₃, ha₄]
          simp only [List.length_append, List.length_singleton]
          omega
        · exact absurd hxW (fun hh => no_occ_in_ws hW hh)
      · exfalso
        have hmem : '\\' ∈ [rb] := by rw [hxR]; simp
        exact absurd hmem (by decide)
    · exfalso
      have hx₂ : ∀ c ∈ x₂, notRb c = true := by
        intro c hc
        have : c ∈ body := by rw [hxB]; simp [hc]
        simp [notRb, hbody c this]
      have ht := congrArg (List.takeWhile notRb) hcontB
      rw [markerTail_split] at ht
      rw [takeWhile_append_stop (by decide) (by simp [notRb]) _] at ht
      rw [takeWhile_append_stop hx₂ (by simp [notRb]) _] at ht
      subst ht
      rw [markerTail_split] at hcontB
      have htl := List.append_cancel_left hcontB
      have h1 : (lb :: (n ++ [rb])) ++ b = W ++ rest := by injection htl
      cases W with
      | nil => exact absurd rfl hWne
      | cons w W' =>
        have hwlb : lb = w := by
          have := congrArg List.head? h1
          simpa using this
        have : isWs w = true := hW w (List.mem_cons_self _ _)
        rw [← hwlb] at this
        exact absurd this (by decide)
  · have ha0 : a = [] := bs_head_only htail hxT
    subst ha0
    have hnone : matchGroupNl tok s = none := by
      rw [hocc]; simpa using hm0 b
    rw [hm] at hnone; cases hnone

theorem numMarker_take23 (n : Str) : List.take 23 (numMarker n) = bsBeginThebib := by
  have hsplit : numMarker n = bsBeginThebib ++ (lb :: (n ++ [rb])) := by
    simp [numMarker, beginMarkerPre]
  rw [hsplit, show (23 : Nat) = bsBeginThebib.length by decide]
  exact List.take_left _ _

theorem numMarker_drop23 (n : Str) : List.drop 23 (numMarker n) = lb :: (n ++ [rb]) := by
  have hsplit : numMarker n = bsBeginThebib ++ (lb :: (n ++ [rb])) := by
    simp [numMarker, beginMarkerPre]
  rw [hsplit, show (23 : Nat) = bsBeginThebib.length by decide]
  exact List.drop_left _ _

theorem hcross_delAddBegin {n : Str} : CrossOk matchDelAddBegin n := by
  intro s r k a b hm hocc
  have l1 : difDelendTok.length = 10 := by decide
  have l2 : difAddbeginTok.length = 12 := by decide
  have l3 : bsBeginThebib.length = 23 := by decide
  have l4 : beginThebib.length = 22 := by decide
  obtain ⟨hr, W1, W2, z, rest, hs, hW1, hW2, hbr, hdrop⟩ := matchDelAddBegin_some hm
  have hocc2 : difDelendTok ++ (W1 ++ (difAddbeginTok ++ (W2 ++ z))) =
      a ++ (('\\' :: markerTail n) ++ b) := by
    rw [← hs, hocc, numMarker_eq]
    simp [List.append_assoc]
  rcases occ_in_append hocc2 with ⟨a₂, ha, hy⟩ | ⟨x₂, hxT1, _⟩
  · rcases occ_in_append hy with ⟨a₃, ha₂, hy2⟩ | ⟨x₂, hxW1, _⟩
    · rcases occ_in_append hy2 with ⟨a₄, ha₃, hy3⟩ | ⟨x₂, hxT2, hcont2⟩
      · rcases occ_in_append hy3 with ⟨a₅, ha₄, hy4⟩ | ⟨x₂, hxW2, _⟩
        · rcases hbr with ⟨hz, hk⟩ | ⟨hz, hk⟩
          · rw [hz] at hy4
            rcases occ_in_append hy4 with ⟨a₆, ha₅, _⟩ | ⟨x₂, hxB, hcont3⟩
            · left
              rw [ha, ha₂, ha₃, ha₄, ha₅]
              simp only [List.length_append, l1, l2, l3]
              omega
            · have ha₅0 : a₅ = [] := bs_head_only (by decide) hxB
              subst ha₅0
              simp only [List.nil_append] at hxB
              have hx₂ : x₂ = beginThebib := by
                have : '\\' :: beginThebib = '\\' :: x₂ := hxB
                injection this with _ h2
                exact h2.symm
              subst hx₂
              have hrest : (lb :: (n ++ [rb])) ++ b = rest := by
                have hmt : markerTail n ++ b = beginThebib ++ ((lb :: (n ++ [rb])) ++ b) := by
                  simp [markerTail]
                rw [hmt] at hcont3
                exact List.append_cancel_left hcont3
              right
              refine ⟨[], 23, ?_, ?_, ?_⟩
              · have hl24 : beginMarkerPre.length = 24 := by decide
                have hlm : (numMarker n).length = beginMarkerPre.length + (n.length + 1) := by
                  simp [numMarker]
                omega
              · rw [hr, numMarker_take23]; rfl
              · rw [hdrop, numMarker_drop23, ← hrest]
          · rw [hz] at hy4
            rcases occ_in_append hy4 with ⟨a₆, ha₅, _⟩ | ⟨x₂, hxB, _⟩
            · left
              rw [ha, ha₂, ha₃, ha₄, ha₅]
              simp only [List.length_append, l1, l2, l4]
              omega
            · exfalso
              have hmem : '\\' ∈ beginThebib := by rw [hxB]; simp
              exact absurd hmem (by decide)
        · exact absurd hxW2 (fun hh => no_occ_in_ws hW2 hh)
      · exfalso
        have ha₃0 : a₃ = [] := bs_head_only (by decide) hxT2
        subst ha₃0
        simp only [List.nil_append] at hxT2
        have hx₂ : x₂ = "DIFaddbegin".toList := by
          have : '\\' :: "DIFaddbegin".toList = '\\' :: x₂ := hxT2
          injection this with _ h2
          exact h2.symm
        subst hx₂
        have hbh := markerTail_head n b
        rw [hcont2, head?_append_left (by decide)] at hbh
        have h' : ("DIFaddbegin".toList).head? = some 'b' := hbh
        simp at h'
    · exact absurd hxW1 (fun hh => no_occ_in_ws hW1 hh)
  · exfalso
    have ha0 : a = [] := bs_head_only (by decide) hxT1
    subst ha0
    have hnone : matchDelAddBegin s = none := by
      rw [hocc]; simpa using hm0_delAddBegin n b
    rw [hm] at hnone; cases hnone

theorem applySub_keeps_marker (m : Str → Option (Str × Nat)) {n : Str} (hn : digitsOnly n)
    (hfire : ∀ s r k, m s = some (r, k) → ∃ c t, s = c :: t ∧ (isWs c = true ∨ c = '\\'))
    (hm0 : ∀ b, m (numMarker n ++ b) = none) (hcr : CrossOk m n)
    {t : Str} (h : numMarker n <:+: t) : numMarker n <:+: applySub m t :=
  rewriteSub_keeps_infix m (numMarker n) (numMarker_ne_nil n)
    (nofire_inside m hn hfire hm0) hcr t.length t h

/-- Every pass of `clean_difcommands` preserves occurrences of the marker
`\begin{thebibliography}{n}`. -/
theorem clean_keeps_marker {n : Str} (hn : digitsOnly n) {t : Str}
    (h : numMarker n <:+: t) : numMarker n <:+: clean_difcommands t := by
  have e1 : difAddbeginTok = '\\' :: "DIFaddbegin".toList := rfl
  have e2 : difAddendTok = '\\' :: "DIFaddend".toList := rfl
  have e3 : difDelbeginTok = '\\' :: "DIFdelbegin".toList := rfl
  have e4 : difDelendTok = '\\' :: "DIFdelend".toList := rfl
  have e5 : difAddOpenTok = '\\' :: ("DIFadd".toList ++ [lb]) := rfl
  have e6 : difDelOpenTok = '\\' :: ("DIFdel".toList ++ [lb]) := rfl
  have e7 : bsBeginTok = '\\' :: "begin".toList := rfl
  have e8 : bsEndTok = '\\' :: "end".toList := rfl
  have h1 := applySub_keeps_marker matchDelAddBegin hn fireHead_delAddBegin
    (hm0_delAddBegin n) hcross_delAddBegin h
  have h2 := applySub_keeps_marker (matchTokWs difAddbeginTok) hn (fireHead_tokWs e1)
    (fun b => hm0_tokWs n b (by decide) (by decide))
    (hcross_tokWs (by decide) (by decide) (fun b => hm0_tokWs n b (by decide) (by decide))) h1
  have h3 := applySub_keeps_marker (matchWsTokWs difAddendTok) hn (fireHead_wsTokWs e2)
    (fun b => hm0_wsTokWs n b (by decide) (by decide))
    (hcross_wsTokWs (by decide) (by decide) (by decide) (by decide)) h2
  have h4 := applySub_keeps_marker (matchTokWs difDelbeginTok) hn (fireHead_tokWs e3)
    (fun b => hm0_tokWs n b (by decide) (by decide))
    (hcross_tokWs (by decide) (by decide) (fun b => hm0_tokWs n b (by decide) (by decide))) h3
  have h5 := applySub_keeps_marker (matchWsTokWs difDelendTok) hn (fireHead_wsTokWs e4)
    (fun b => hm0_wsTokWs n b (by decide) (by decide))
    (hcross_wsTokWs (by decide) (by decide) (by decide) (by decide)) h4
  have h6 := applySub_keeps_marker (matchGroupNl difAddOpenTok) hn (fireHead_groupNl e5)
    (fun b => hm0_groupNl n b (by decide) (by decide))
    (hcross_groupNl (by decide) (fun b => hm0_groupNl n b (by decide) (by decide))) h5
  have h7 := applySub_keeps_marker (matchGroupNl difDelOpenTok) hn (fireHead_groupNl e6)
    (fun b => hm0_groupNl n b (by decide) (by decide))
    (hcross_groupNl (by decide) (fun b => hm0_groupNl n b (by decide) (by decide))) h6
  have h8 := applySub_keeps_marker matchWsRun hn fireHead_wsRun
    (hm0_wsRun n) hcross_wsRun h7
  have h9 := applySub_keeps_marker (matchTokWsBrace bsBeginTok) hn (fireHead_tokWsBrace e7)
    (hm0_beginBrace n)
    (hcross_tokWsBrace (by decide) (hm0_beginBrace n)) h8
  have h10 := applySub_keeps_marker (matchTokWsBrace bsEndTok) hn (fireHead_tokWsBrace e8)
    (hm0_endBrace n)
    (hcross_tokWsBrace (by decide) (hm0_endBrace n)) h9
  exact h10

theorem numMarker_assoc (N : Str) :
    beginMarkerPre ++ N ++ [rb] = numMarker N := by
  simp [numMarker]

theorem numMarkerAt_marker {M : Str} (hM : digitsOnly M) (b : Str) :
    numMarkerAt (numMarker M ++ b) = some (M, 25 + M.length) := by
  have hsplit : numMarker M ++ b = beginMarkerPre ++ (M ++ rb :: b) := by
    simp [numMarker]
  rw [hsplit]
  have h1 : startsWith beginMarkerPre (beginMarkerPre ++ (M ++ rb :: b)) = true :=
    startsWith_self_append _ _
  have h2 : List.drop 24 (beginMarkerPre ++ (M ++ rb :: b)) = M ++ rb :: b := by
    rw [show (24 : Nat) = beginMarkerPre.length by decide]
    exact List.drop_left _ _
  have h3 : List.takeWhile Char.isDigit (M ++ rb :: b) = M :=
    takeWhile_append_stop (fun d hd => hM.2 d hd) (by decide) b
  have h4 : List.drop M.length (M ++ rb :: b) = rb :: b := List.drop_left _ _
  have h5 : startsWith [rb] (rb :: b) = true := by simp [startsWith]
  simp only [numMarkerAt, h1, if_true, h2, h3, h4, h5]
  rw [if_pos hM.1]
  have : 24 + M.length + 1 = 25 + M.length := by omega
  rw [this]

theorem matchNumMarkerSub_repl {N s r : Str} {k : Nat}
    (h : matchNumMarkerSub N s = some (r, k)) : r = numMarker N := by
  unfold matchNumMarkerSub at h
  cases hm : numMarkerAt s with
  | none => rw [hm] at h; cases h
  | some dl =>
    rw [hm] at h
    simp only [Option.some.injEq, Prod.mk.injEq] at h
    rw [← h.1, numMarker_assoc]

/-- Substituting the final count into a text that contains some numeric
marker produces a text containing the marker with the new count. -/
theorem subNum_contains {N M : Str} (hM : digitsOnly M) :
    ∀ (fuel : Nat) (s : Str), s.length ≤ fuel → (∃ a b, s = a ++ numMarker M ++ b) →
      numMarker N <:+: rewriteSub (matchNumMarkerSub N) fuel s := by
  intro fuel
  induction fuel with
  | zero =>
    intro s hl ⟨a, b, hocc⟩
    exfalso
    rw [hocc] at hl
    have := numMarker_ne_nil M
    have : 1 ≤ (numMarker M).length := List.length_pos.mpr this
    simp only [List.length_append] at hl
    omega
  | succ f ih =>
    intro s hl ⟨a, b, hocc⟩
    cases s with
    | nil =>
      exfalso
      have h1 : 1 ≤ (numMarker M).length := List.length_pos.mpr (numMarker_ne_nil M)
      have := congrArg List.length hocc
      simp only [List.length_append, List.length_nil] at this
      omega
    | cons c cs =>
      cases hm : matchNumMarkerSub N (c :: cs) with
      | some rk =>
        obtain ⟨r, k⟩ := rk
        rw [show rewriteSub (matchNumMarkerSub N) (f + 1) (c :: cs) =
          r ++ rewriteSub (matchNumMarkerSub N) f (List.drop k cs) by simp [rewriteSub, hm]]
        rw [matchNumMarkerSub_repl hm]
        exact ((List.prefix_append _ _).isInfix)
      | none =>
        cases a with
        | nil =>
          exfalso
          simp only [List.nil_append] at hocc
          have hfire : matchNumMarkerSub N (c :: cs) ≠ none := by
            rw [hocc]
            rw [show numMarker M ++ b = (numMarker M ++ b) from rfl]
            unfold matchNumMarkerSub
            rw [numMarkerAt_marker hM b]
            simp
          exact hfire hm
        | cons a₀ a' =>
          rw [show rewriteSub (matchNumMarkerSub N) (f + 1) (c :: cs) =
            c :: rewriteSub (matchNumMarkerSub N) f cs by simp [rewriteSub, hm]]
          have hc2 : c = a₀ ∧ cs = a' ++ (numMarker M ++ b) := by
            rw [List.append_assoc, List.cons_append] at hocc
            exact ⟨by injection hocc, by injection hocc⟩
          have hcl : cs.length ≤ f := by
            simp only [List.length_cons] at hl
            omega
          refine List.infix_cons (ih cs hcl ⟨a', b, ?_⟩)
          rw [hc2.2, List.append_assoc]

/-- `str.replace`: if the pattern occurs, the replacement occurs in the
output. -/
theorem matchLit_some {pat repl s r : Str} {k : Nat}
    (h : matchLit pat repl s = some (r, k)) : r = repl := by
  unfold matchLit at h
  cases pat with
  | nil => cases h
  | cons p ps =>
    by_cases hsw : startsWith (p :: ps) s = true
    · rw [if_pos hsw] at h
      simp only [Option.some.injEq, Prod.mk.injEq] at h
      exact h.1.symm
    · rw [if_neg hsw] at h
      cases h

theorem matchLit_fires {pat repl : Str} {b : Str} (hpat : pat ≠ []) :
    matchLit pat repl (pat ++ b) ≠ none := by
  unfold matchLit
  cases pat with
  | nil => exact absurd rfl hpat
  | cons p ps =>
    rw [if_pos (startsWith_self_append _ _)]
    simp

theorem pyReplace_contains_aux {pat repl : Str} (hpat : pat ≠ []) :
    ∀ (fuel : Nat) (s : Str), s.length ≤ fuel → pat <:+: s →
      repl <:+: rewriteSub (matchLit pat repl) fuel s := by
  intro fuel
  induction fuel with
  | zero =>
    intro s hl h
    exfalso
    obtain ⟨a, b, hab⟩ := h
    have h1 : 1 ≤ pat.length := List.length_pos.mpr hpat
    have := congrArg List.length hab
    simp only [List.length_append] at this
    omega
  | succ f ih =>
    intro s hl h
    obtain ⟨a, b, hab⟩ := h
    cases s with
    | nil =>
      exfalso
      have h1 : 1 ≤ pat.length := List.length_pos.mpr hpat
      have := congrArg List.length hab
      simp only [List.length_append, List.length_nil] at this
      omega
    | cons c cs =>
      cases hm : matchLit pat repl (c :: cs) with
      | some rk =>
        obtain ⟨r, k⟩ := rk
        rw [show rewriteSub (matchLit pat repl) (f + 1) (c :: cs) =
          r ++ rewriteSub (matchLit pat repl) f (List.drop k cs) by simp [rewriteSub, hm]]
        rw [matchLit_some hm]
        exact (List.prefix_append _ _).isInfix
      | none =>
        cases a with
        | nil =>
          exfalso
          simp only [List.nil_append] at hab
          exact matchLit_fires hpat (by rw [hab]; exact hm)
        | cons a₀ a' =>
          rw [show rewriteSub (matchLit pat repl) (f + 1) (c :: cs) =
            c :: rewriteSub (matchLit pat repl) f cs by simp [rewriteSub, hm]]
          have hc2 : a₀ = c ∧ cs = a' ++ (pat ++ b) := by
            rw [List.append_assoc, List.cons_append] at hab
            exact ⟨by injection hab, by injection (Eq.symm hab)⟩
          have hcl : cs.length ≤ f := by
            simp only [List.length_cons] at hl
            omega
          refine List.infix_cons (ih cs hcl ⟨a', b, ?_⟩)
          rw [hc2.2, List.append_assoc]

theorem pyReplace_contains {pat repl s : Str} (hpat : pat ≠ []) (h : pat <:+: s) :
    repl <:+: pyReplace s pat repl :=
  pyReplace_contains_aux hpat s.length s le_rfl h

theorem splitFirst_eq {pat : Str} : ∀ {s a b : Str}, splitFirst pat s = some (a, b) →
    s = a ++ pat ++ b := by
  intro s
  induction s with
  | nil =>
    intro a b h
    unfold splitFirst at h
    split at h
    next hp =>
      simp only [Option.some.injEq, Prod.mk.injEq] at h
      rw [← h.1, ← h.2, hp]
      rfl
    next => cases h
  | cons c cs ih =>
    intro a b h
    unfold splitFirst at h
    split at h
    next hsw =>
      simp only [Option.some.injEq, Prod.mk.injEq] at h
      obtain ⟨u, hu⟩ := (startsWith_iff pat _).mp hsw
      have hdrop : List.drop pat.length (c :: cs) = u := by
        rw [← hu]; exact List.drop_left _ _
      rw [← h.1, ← h.2, hdrop, ← hu]
      simp
    next =>
      cases hsp : splitFirst pat cs with
      | some ab =>
        obtain ⟨a', b'⟩ := ab
        rw [hsp] at h
        simp only [Option.some.injEq, Prod.mk.injEq] at h
        rw [← h.1, ← h.2]
        have hcs := ih hsp
        rw [List.cons_append, List.cons_append, ← hcs]
      | none => rw [hsp] at h; cases h

theorem extract_bibliography_occ {t : Str} :
    extract_bibliography t ≠ [] → extract_bibliography t <:+: t := by
  intro h
  unfold extract_bibliography at h ⊢
  cases h1 : splitFirst bsBeginThebib t with
  | none => rw [h1] at h; simp at h
  | some pr =>
    obtain ⟨pre, rest⟩ := pr
    rw [h1] at h
    dsimp only at h ⊢
    cases h2 : splitFirst endThebib rest with
    | none => rw [h2] at h; simp at h
    | some mr =>
      obtain ⟨mid, after⟩ := mr
      dsimp only at h ⊢
      have e1 := splitFirst_eq h1
      have e2 := splitFirst_eq h2
      refine ⟨pre, after, ?_⟩
      rw [e1, e2]
      simp [List.append_assoc]

theorem findNumMarker_marker {N u : Str} (hN : digitsOnly N) :
    findNumMarker (numMarker N ++ u) = some N := by
  have hm := numMarkerAt_marker hN u
  rw [nm_cons] at hm ⊢
  unfold findNumMarker
  rw [hm]

theorem matchWsRun_none_head {c : Char} {cs : Str} (h : matchWsRun (c :: cs) = none) :
    isWs c = false := by
  unfold matchWsRun at h
  dsimp only at h
  by_cases hc : isWs c = true
  · rw [if_pos hc] at h; cases h
  · simpa using hc

theorem wsRun_no_nl : ∀ (fuel : Nat) (s : Str), s.length ≤ fuel →
    ∀ c ∈ rewriteSub matchWsRun fuel s, c ≠ '\n' := by
  intro fuel
  induction fuel with
  | zero =>
    intro s hl c hc
    have hs : s = [] := List.eq_nil_of_length_eq_zero (Nat.le_zero.mp hl)
    subst hs
    simp [rewriteSub] at hc
  | succ f ih =>
    intro s hl c hc
    cases s with
    | nil => simp [rewriteSub_nil] at hc
    | cons c₀ cs =>
      cases hm : matchWsRun (c₀ :: cs) with
      | some rk =>
        obtain ⟨r, k⟩ := rk
        rw [show rewriteSub matchWsRun (f + 1) (c₀ :: cs) =
          r ++ rewriteSub matchWsRun f (List.drop k cs) by simp [rewriteSub, hm]] at hc
        obtain ⟨hr, _⟩ := matchWsRun_some hm
        rcases List.mem_append.mp hc with hc | hc
        · rw [hr] at hc
          simp only [List.mem_singleton] at hc
          subst hc
          decide
        · have hdl : (List.drop k cs).length ≤ f := by
            rw [List.length_drop]
            simp only [List.length_cons] at hl
            omega
          exact ih _ hdl c hc
      | none =>
        rw [show rewriteSub matchWsRun (f + 1) (c₀ :: cs) =
          c₀ :: rewriteSub matchWsRun f cs by simp [rewriteSub, hm]] at hc
        rcases List.mem_cons.mp hc with rfl | hc
        · intro hcn
          subst hcn
          have := matchWsRun_none_head hm
          simp [isWs] at this
        · exact ih cs (by simp only [List.length_cons] at hl; omega) c hc

theorem applySub_no_nl (m : Str → Option (Str × Nat))
    (hr : ∀ s r k, m s = some (r, k) → ∀ c ∈ r, c ≠ '\n')
    {t : Str} (h : ∀ c ∈ t, c ≠ '\n') : ∀ c ∈ applySub m t, c ≠ '\n' :=
  rewriteSub_chars m (fun c => c ≠ '\n') hr t.length t h

theorem clean_no_nl (t : Str) : ∀ c ∈ clean_difcommands t, c ≠ '\n' := by
  have h8 : ∀ c ∈ applySub matchWsRun
      (applySub (matchGroupNl difDelOpenTok) (applySub (matchGroupNl difAddOpenTok)
      (applySub (matchWsTokWs difDelendTok) (applySub (matchTokWs difDelbeginTok)
      (applySub (matchWsTokWs difAddendTok) (applySub (matchTokWs difAddbeginTok)
      (applySub matchDelAddBegin t))))))), c ≠ '\n' :=
    wsRun_no_nl _ _ le_rfl
  have h9 := applySub_no_nl (matchTokWsBrace bsBeginTok) (fun s r k hm c hc => by
    rw [(matchTokWsBrace_some hm).1] at hc
    intro hcn
    subst hcn
    exact absurd hc (by decide)) h8
  have h10 := applySub_no_nl (matchTokWsBrace bsEndTok) (fun s r k hm c hc => by
    rw [(matchTokWsBrace_some hm).1] at hc
    intro hcn
    subst hcn
    exact absurd hc (by decide)) h9
  exact h10

theorem getLast?_mem_local {l : Str} {c : Char} (h : l.getLast? = some c) : c ∈ l := by
  induction l with
  | nil => simp at h
  | cons a t ih =>
    cases t with
    | nil =>
      simp only [List.getLast?_singleton, Option.some.injEq] at h
      simp [h]
    | cons b t' =>
      rw [List.getLast?_cons_cons] at h
      exact List.mem_cons_of_mem _ (ih h)

theorem ensure_nl_spec (t : Str) (hnl : ∀ c ∈ t, c ≠ '\n') :
    (if t.getLast? = some '\n' then t else t ++ ['\n']) = t ++ ['\n'] := by
  have hlast : ¬ t.getLast? = some '\n' := fun hg => hnl '\n' (getLast?_mem_local hg) rfl
  rw [if_neg hlast]

theorem process_files_eq_pos {d nt fb : Str} (hdb : extract_bibliography d ≠ [])
    (hnb : extract_bibliography nt ≠ [])
    (hfix : fix_bibliography_enumeration (extract_bibliography d)
      (extract_bibliography nt) = some fb) :
    process_files d nt = some (
      (fun t => if t.getLast? = some '\n' then t else t ++ ['\n'])
        (clean_difcommands (pyReplace d (extract_bibliography d)
          (clean_difcommands fb)))) := by
  simp only [process_files]
  rw [if_pos ⟨hdb, hnb⟩, hfix]

theorem process_files_none_of_fix {d nt : Str} (hdb : extract_bibliography d ≠ [])
    (hnb : extract_bibliography nt ≠ [])
    (hfix : fix_bibliography_enumeration (extract_bibliography d)
      (extract_bibliography nt) = none) :
    process_files d nt = none := by
  simp only [process_files]
  rw [if_pos ⟨hdb, hnb⟩, hfix]

theorem process_files_trailing_shape {d nt out : Str}
    (h : process_files d nt = some out) :
    ∃ y, out = y ++ ['\n'] ∧ ∀ c ∈ y, c ≠ '\n' := by
  simp only [process_files] at h
  split at h
  case isTrue hcond =>
    cases hfix : fix_bibliography_enumeration (extract_bibliography d)
        (extract_bibliography nt) with
    | none => rw [hfix] at h; cases h
    | some fb =>
      rw [hfix] at h
      simp only [Option.some.injEq] at h
      refine ⟨clean_difcommands (pyReplace d (extract_bibliography d)
        (clean_difcommands fb)), ?_, clean_no_nl _⟩
      rw [← h, ensure_nl_spec _ (clean_no_nl _)]
  case isFalse =>
    simp only [Option.some.injEq] at h
    refine ⟨clean_difcommands d, ?_, clean_no_nl _⟩
    rw [← h, ensure_nl_spec _ (clean_no_nl _)]

theorem fix_contains {db nb N M u : Str} (hN : digitsOnly N) (hM : digitsOnly M)
    (hnb : nb = numMarker N ++ u) (hdb : ∃ a b, db = a ++ numMarker M ++ b) :
    fix_bibliography_enumeration db nb = some (applySub (matchNumMarkerSub N) db) ∧
      numMarker N <:+: applySub (matchNumMarkerSub N) db := by
  constructor
  · unfold fix_bibliography_enumeration
    rw [hnb, findNumMarker_marker hN]
  · exact subNum_contains hM db.length db le_rfl hdb

theorem infix_ensure_nl {p t : Str} (h : p <:+: t) :
    p <:+: (if t.getLast? = some '\n' then t else t ++ ['\n']) := by
  split
  · exact h
  · exact h.trans (List.prefix_append t ['\n']).isInfix

/--
C2 (amended): if the diff text's extracted bibliography block contains at
least one numeric-count begin marker and the new text's extracted
bibliography block starts with the marker `\begin{thebibliography}{N}`, then
`process_files` succeeds and its output contains `\begin{thebibliography}{N}`.
-/
theorem C2_count_propagates (diff_text new_text N u M a b : Str)
    (hN : digitsOnly N) (hM : digitsOnly M)
    (hdb : extract_bibliography diff_text ≠ [])
    (hnb : extract_bibliography new_text = numMarker N ++ u)
    (hdbM : extract_bibliography diff_text = a ++ numMarker M ++ b) :
    ∃ out, process_files diff_text new_text = some out ∧ numMarker N <:+: out := by
  have hnbne : extract_bibliography new_text ≠ [] := by
    rw [hnb]
    intro hc
    rcases List.append_eq_nil.mp hc with ⟨h1, _⟩
    exact numMarker_ne_nil N h1
  obtain ⟨hfix, hcont⟩ := fix_contains hN hM hnb ⟨a, b, hdbM⟩
  refine ⟨_, process_files_eq_pos hdb hnbne hfix, ?_⟩
  have h1 := clean_keeps_marker hN hcont
  have h2 : numMarker N <:+: pyReplace diff_text (extract_bibliography diff_text)
      (clean_difcommands (applySub (matchNumMarkerSub N) (extract_bibliography diff_text))) :=
    h1.trans (pyReplace_contains hdb (extract_bibliography_occ hdb))
  have h3 := clean_keeps_marker hN h2
  exact infix_ensure_nl h3

/-- Diff text whose bibliography has a non-numeric count `xx`. -/
def dEx2 : Str := bsBeginThebib ++ [lb, 'x', 'x', rb] ++ endThebib

/-- New text whose bibliography declares the count 7. -/
def nEx2 : Str := numMarker ['7'] ++ endThebib

set_option maxRecDepth 10000 in
/--
C2 counterexample: both the diff text and the new text contain a
bibliography environment and the new text declares count 7, yet the output
of `process_files` contains no begin marker declaring count 7, because the
diff bibliography has no numeric-count marker for the substitution to hit.
-/
theorem C2_counterexample :
    (extract_bibliography dEx2 ≠ [] ∧ extract_bibliography nEx2 ≠ [] ∧
      findNumMarker (extract_bibliography nEx2) = some ['7']) ∧
    process_files dEx2 nEx2 = some (dEx2 ++ ['\n']) ∧
    ¬ (numMarker ['7'] <:+: dEx2 ++ ['\n']) := by decide

/-- Diff text whose bibliography declares count 4. -/
def dEx2w : Str := numMarker ['4'] ++ endThebib

set_option maxRecDepth 10000 in
theorem C2_count_propagates_witness :
    ∃ out, process_files dEx2w nEx2 = some out ∧ numMarker ['7'] <:+: out :=
  C2_count_propagates dEx2w nEx2 ['7'] endThebib ['4'] [] endThebib
    ⟨by decide, by decide⟩ ⟨by decide, by decide⟩ (by decide) (by decide) (by decide)

/--
C7: whenever `process_files` succeeds, the returned text ends with exactly
one newline character: it is `y ++ ['\n']` where `y` contains no newline.
-/
theorem C7_trailing_newline (d nt out : Str) (h : process_files d nt = some out) :
    ∃ y, out = y ++ ['\n'] ∧ ∀ c ∈ y, c ≠ '\n' :=
  process_files_trailing_shape h

set_option maxRecDepth 10000 in
theorem C7_trailing_newline_witness :
    ∃ y, ("hello\n".toList : Str) = y ++ ['\n'] ∧ ∀ c ∈ y, c ≠ '\n' :=
  C7_trailing_newline "hello".toList [] "hello\n".toList (by decide)

/-- New text whose top-level begin marker has the non-numeric count `n` but
which nests a second begin marker with the numeric count 5. -/
def nEx9 : Str := bsBeginThebib ++ [lb, 'n', rb] ++ bsBeginThebib ++ [lb, '5', rb] ++ endThebib

/-- Diff text for the C9 examples, with a numeric count 4. -/
def dEx9 : Str := numMarker ['4'] ++ endThebib

set_option maxRecDepth 10000 in
/--
C9 counterexample: the new text's bibliography environment opens with a
begin marker carrying no decimal item-count (`{n}`), yet `process_files`
succeeds (no exception), because the search for
`\begin{thebibliography}{(\d+)}` finds a nested marker further inside the
extracted block.
-/
theorem C9_counterexample :
    (extract_bibliography dEx9 ≠ [] ∧ extract_bibliography nEx9 ≠ [] ∧
      numMarkerAt (extract_bibliography nEx9) = none) ∧
    (process_files dEx9 nEx9).isSome = true := by decide

/--
C9 (amended): if both the diff text and the new text contain a
bibliography environment but the new text's extracted bibliography block
contains no `\begin{thebibliography}{<digits>}` marker anywhere, then
`process_files` fails (the model's `none` is the Python AttributeError
raised by dereferencing the failed regex match).
-/
theorem C9_missing_count_fails (d nt : Str)
    (hdb : extract_bibliography d ≠ []) (hnb : extract_bibliography nt ≠ [])
    (hfm : findNumMarker (extract_bibliography nt) = none) :
    process_files d nt = none := by
  refine process_files_none_of_fix hdb hnb ?_
  unfold fix_bibliography_enumeration
  rw [hfm]

/-- New text whose bibliography has no numeric count anywhere. -/
def nEx9w : Str := bsBeginThebib ++ [lb, 'n', rb] ++ endThebib

set_option maxRecDepth 10000 in
theorem C9_missing_count_fails_witness :
    process_files dEx9 nEx9w = none :=
  C9_missing_count_fails dEx9 nEx9w (by decide) (by decide) (by decide)

/-! ### Idempotence analysis of `clean_difcommands` -/

/-- The four-character string `\DIF`, common prefix of all diff-markup tokens. -/
def DIFpat : Str := '\\' :: "DIF".toList

/-- `s` contains no occurrence of `\DIF`. -/
def difFree (s : Str) : Prop := ¬ (DIFpat <:+: s)

theorem difFree_mono {s t : Str} (h : t <:+: s) (hs : difFree s) : difFree t :=
  fun hc => hs (hc.trans h)

theorem applySub_id_of_nofire {m : Str → Option (Str × Nat)} {s : Str}
    (h : ∀ t, t <:+ s → m t = none) : applySub m s = s :=
  rewriteSub_id_of_nofire m s.length s h

/-- A matcher all of whose fires exhibit `\DIF` does not fire anywhere in a
`\DIF`-free string, so its pass is the identity there. -/
theorem applySub_id_of_difFree {m : Str → Option (Str × Nat)}
    (hm : ∀ t r k, m t = some (r, k) → DIFpat <:+: t)
    {s : Str} (hs : difFree s) : applySub m s = s := by
  refine applySub_id_of_nofire ?_
  intro t ht
  cases hmt : m t with
  | none => rfl
  | some rk =>
    obtain ⟨r, k⟩ := rk
    exact absurd ((hm t r k hmt).trans ht.isInfix) hs

theorem difInfix_tokWs {tok : Str} (hp : DIFpat <+: tok) :
    ∀ t r k, matchTokWs tok t = some (r, k) → DIFpat <:+: t := by
  intro t r k h
  unfold matchTokWs at h
  split at h
  case isTrue hsw => exact (hp.trans ((startsWith_iff tok t).mp hsw)).isInfix
  case isFalse => cases h

theorem difInfix_wsTokWs {tok : Str} (hp : DIFpat <+: tok) :
    ∀ t r k, matchWsTokWs tok t = some (r, k) → DIFpat <:+: t := by
  intro t r k h
  simp only [matchWsTokWs] at h
  split at h
  case isTrue hsw =>
    exact ((hp.trans ((startsWith_iff _ _).mp hsw)).isInfix).trans
      (List.drop_suffix _ _).isInfix
  case isFalse => cases h

theorem difInfix_groupNl {tok : Str} (hp : DIFpat <+: tok) :
    ∀ t r k, matchGroupNl tok t = some (r, k) → DIFpat <:+: t := by
  intro t r k h
  simp only [matchGroupNl] at h
  split at h
  case isTrue hsw => exact (hp.trans ((startsWith_iff _ _).mp hsw)).isInfix
  case isFalse => cases h

theorem difInfix_delAddBegin :
    ∀ t r k, matchDelAddBegin t = some (r, k) → DIFpat <:+: t := by
  intro t r k h
  unfold matchDelAddBegin at h
  split at h
  case isTrue hsw =>
    exact ((show DIFpat <+: difDelendTok by decide).trans
      ((startsWith_iff _ _).mp hsw)).isInfix
  case isFalse => cases h

/-- The last three cleanup passes: whitespace collapsing followed by the
`\begin␣{` and `\end␣{` fix-ups. -/
def cleanTail (t : Str) : Str :=
  applySub (matchTokWsBrace bsEndTok)
    (applySub (matchTokWsBrace bsBeginTok) (applySub matchWsRun t))

theorem clean_eq_cleanTail_of_difFree {t : Str} (h : difFree t) :
    clean_difcommands t = cleanTail t := by
  simp only [clean_difcommands, cleanTail]
  rw [applySub_id_of_difFree difInfix_delAddBegin h,
      applySub_id_of_difFree (difInfix_tokWs (show DIFpat <+: difAddbeginTok by decide)) h,
      applySub_id_of_difFree (difInfix_wsTokWs (show DIFpat <+: difAddendTok by decide)) h,
      applySub_id_of_difFree (difInfix_tokWs (show DIFpat <+: difDelbeginTok by decide)) h,
      applySub_id_of_difFree (difInfix_wsTokWs (show DIFpat <+: difDelendTok by decide)) h,
      applySub_id_of_difFree (difInfix_groupNl (show DIFpat <+: difAddOpenTok by decide)) h,
      applySub_id_of_difFree (difInfix_groupNl (show DIFpat <+: difDelOpenTok by decide)) h]

/--
Occurrence reflection: if the pattern `p` cannot occur inside a replacement
nor end inside one, and the prefix-reflection conditions hold, then every
occurrence of `p` in the scanner output reflects to an occurrence in the
input.
-/
theorem rewriteSub_reflect_occ (m : Str → Option (Str × Nat)) (p : Str)
    (hrepl : ∀ s r k, m s = some (r, k) → ∃ c t, r = c :: t ∧ (isWs c = true ∨ c = '\\'))
    (hptail : ∀ c ∈ p.tail, okChar c)
    (hno : ∀ s r k, m s = some (r, k) → ¬ (p <:+: r))
    (hstr : ∀ s r k, m s = some (r, k) →
      ∀ j, 1 ≤ j → j < p.length → ¬ (List.take j p <:+ r)) :
    ∀ (fuel : Nat) (s : Str), p <:+: rewriteSub m fuel s → p <:+: s := by
  intro fuel
  induction fuel with
  | zero => intro s h; exact h
  | succ f ih =>
    intro s h
    cases s with
    | nil => rw [rewriteSub_nil] at h; exact h
    | cons c cs =>
      cases hm : m (c :: cs) with
      | some rk =>
        obtain ⟨r, k⟩ := rk
        rw [show rewriteSub m (f + 1) (c :: cs)
            = r ++ rewriteSub m f (List.drop k cs) from by
          simp only [rewriteSub, hm]] at h
        rcases infix_append_cases h with h1 | h1 | ⟨p₁, p₂, hp, hp1, hp2, hs1, _⟩
        · exact absurd h1 (hno _ _ _ hm)
        · exact (ih _ h1).trans
            (((List.drop_suffix k cs).trans (List.suffix_cons c cs)).isInfix)
        · exfalso
          have hp₁ : p₁ = List.take p₁.length p := by
            rw [hp, List.take_left]
          have hlen : p₁.length < p.length := by
            rw [hp, List.length_append]
            have : 0 < p₂.length := List.length_pos.mpr hp2
            omega
          have h1le : 1 ≤ p₁.length := List.length_pos.mpr hp1
          exact hstr _ _ _ hm p₁.length h1le hlen (by rw [← hp₁]; exact hs1)
      | none =>
        rw [show rewriteSub m (f + 1) (c :: cs) = c :: rewriteSub m f cs from by
          simp only [rewriteSub, hm]] at h
        rcases List.infix_cons_iff.mp h with h1 | h1
        · cases p with
          | nil => exact List.nil_infix
          | cons p₀ q =>
            obtain ⟨hpc, hq⟩ := List.cons_prefix_cons.mp h1
            have hq' := (rewriteSub_reflect_front m hrepl q hptail f cs hq).1
            exact (List.cons_prefix_cons.mpr ⟨hpc, hq'⟩).isInfix
        · exact List.infix_cons (ih _ h1)

theorem difFree_applySub_wsRun {s : Str} (h : difFree s) :
    difFree (applySub matchWsRun s) := by
  intro hc
  refine h (rewriteSub_reflect_occ matchWsRun DIFpat replHead_wsRun (by decide)
    ?_ ?_ s.length s hc)
  · intro t r k hm
    obtain ⟨hr, _⟩ := matchWsRun_some hm
    rw [hr]; decide
  · intro t r k hm j h1 h4
    obtain ⟨hr, _⟩ := matchWsRun_some hm
    rw [hr]
    have h4' : j < 4 := by
      have : DIFpat.length = 4 := by decide
      omega
    interval_cases j <;> decide

theorem difFree_applySub_tokWsBrace {tok tt : Str} (htok : tok = '\\' :: tt)
    (hno : ¬ (DIFpat <:+: tok ++ [lb]))
    (hstr : ∀ j, 1 ≤ j → j < 4 → ¬ (List.take j DIFpat <:+ tok ++ [lb]))
    {s : Str} (h : difFree s) : difFree (applySub (matchTokWsBrace tok) s) := by
  intro hc
  refine h (rewriteSub_reflect_occ (matchTokWsBrace tok) DIFpat
    (replHead_tokWsBrace htok) (by decide) ?_ ?_ s.length s hc)
  · intro t r k hm
    obtain ⟨hr, _⟩ := matchTokWsBrace_some hm
    rw [hr]; exact hno
  · intro t r k hm j h1 hlt
    obtain ⟨hr, _⟩ := matchTokWsBrace_some hm
    rw [hr]
    refine hstr j h1 ?_
    have : DIFpat.length = 4 := by decide
    omega

theorem difFree_cleanTail {s : Str} (h : difFree s) : difFree (cleanTail s) := by
  unfold cleanTail
  refine difFree_applySub_tokWsBrace (show bsEndTok = '\\' :: "end".toList from rfl)
    (by decide) (fun j h1 h4 => by interval_cases j <;> decide)
    (difFree_applySub_tokWsBrace (show bsBeginTok = '\\' :: "begin".toList from rfl)
      (by decide) (fun j h1 h4 => by interval_cases j <;> decide)
      (difFree_applySub_wsRun h))

/-- If every fire replaces the matched span by itself, the pass is the
identity. -/
theorem rewriteSub_id_of_selfrepl (m : Str → Option (Str × Nat)) :
    ∀ (fuel : Nat) (s : Str),
      (∀ t, t <:+ s → ∀ r k, m t = some (r, k) → r = List.take (k + 1) t) →
      rewriteSub m fuel s = s := by
  intro fuel
  induction fuel with
  | zero => intro s _; rfl
  | succ f ih =>
    intro s hs
    cases s with
    | nil => rfl
    | cons c cs =>
      cases hm : m (c :: cs) with
      | some rk =>
        obtain ⟨r, k⟩ := rk
        have hr := hs _ List.suffix_rfl r k hm
        have hrec := ih (List.drop k cs) (fun t ht => hs t
          (ht.trans ((List.drop_suffix k cs).trans (List.suffix_cons c cs))))
        simp only [rewriteSub, hm]
        rw [hrec, hr]
        have hstep : List.drop k cs = List.drop (k + 1) (c :: cs) := by
          simp [List.drop_succ_cons]
        rw [hstep, List.take_append_drop]
      | none =>
        simp only [rewriteSub, hm]
        rw [ih cs (fun t ht => hs t (ht.trans (List.suffix_cons c cs)))]

/-- Whitespace-normal form: every whitespace character is a single space
followed by a non-whitespace character or the end of the string. -/
def wsNormed (s : Str) : Prop :=
  ∀ t, t <:+ s → ∀ c cs', t = c :: cs' → isWs c = true → c = ' ' ∧ wsLen cs' = 0

theorem wsNormed_mono {s t : Str} (h : t <:+ s) (hs : wsNormed s) : wsNormed t :=
  fun u hu => hs u (hu.trans h)

theorem wsLen_zero_head {u : Str} (h : wsLen u = 0) :
    ∀ c, u.head? = some c → isWs c = false := by
  intro c hc
  cases u with
  | nil => cases hc
  | cons d ds =>
    simp only [List.head?_cons, Option.some.injEq] at hc
    rw [← hc]
    cases hd : isWs d with
    | false => rfl
    | true => simp [wsLen, List.takeWhile_cons, hd] at h

theorem wsLen_zero_of_head {u : Str} (h : ∀ c, u.head? = some c → isWs c = false) :
    wsLen u = 0 := by
  cases u with
  | nil => rfl
  | cons d ds => exact wsLen_cons_false (h d rfl) ds

/-- Heads survive rewriting when the input head does not fire and every
replacement head is non-whitespace. -/
theorem rewriteSub_head_not_ws (m : Str → Option (Str × Nat))
    (hr : ∀ s r k, m s = some (r, k) → ∃ c t, r = c :: t ∧
      (isWs c = false ∨ ∃ d t', s = d :: t' ∧ isWs d = true))
    (fuel : Nat) (u : Str) (hu : ∀ c, u.head? = some c → isWs c = false) :
    ∀ c, (rewriteSub m fuel u).head? = some c → isWs c = false := by
  cases fuel with
  | zero => exact hu
  | succ f =>
    cases u with
    | nil => intro c hc; rw [rewriteSub_nil] at hc; cases hc
    | cons a as =>
      cases hm : m (a :: as) with
      | some rk =>
        obtain ⟨r, k⟩ := rk
        obtain ⟨c₀, t₀, hr0, hcw⟩ := hr _ _ _ hm
        rcases hcw with hcw | ⟨d, t', hdt, hdw⟩
        · intro c hc
          rw [show rewriteSub m (f + 1) (a :: as)
              = r ++ rewriteSub m f (List.drop k as) from by
            simp only [rewriteSub, hm], hr0] at hc
          simp only [List.cons_append, List.head?_cons, Option.some.injEq] at hc
          rw [← hc]; exact hcw
        · exfalso
          have had : a = d := by
            have := congrArg List.head? hdt
            simpa using this
          have := hu a rfl
          rw [had, hdw] at this
          cases this
      | none =>
        intro c hc
        rw [show rewriteSub m (f + 1) (a :: as) = a :: rewriteSub m f as from by
          simp only [rewriteSub, hm]] at hc
        simp only [List.head?_cons, Option.some.injEq] at hc
        rw [← hc]; exact hu a rfl

/-- Suffixes of an append decompose along the boundary. -/
theorem suffix_append_cases {t a b : Str} (h : t <:+ a ++ b) :
    t <:+ b ∨ ∃ a', a' <:+ a ∧ t = a' ++ b := by
  obtain ⟨u, hu⟩ := h
  rcases List.append_eq_append_iff.mp hu with ⟨x, hx1, hx2⟩ | ⟨y, hy1, hy2⟩
  · exact Or.inr ⟨x, ⟨u, hx1.symm⟩, hx2⟩
  · exact Or.inl ⟨y, hy2.symm⟩

theorem suffix_singleton {a' : Str} {c : Char} (h : a' <:+ [c]) :
    a' = [] ∨ a' = [c] := by
  obtain ⟨w, hw⟩ := h
  cases w with
  | nil => right; simpa using hw
  | cons x xs =>
    left
    have hl := congrArg List.length hw
    rw [List.length_append, List.length_cons] at hl
    simp only [List.length_singleton] at hl
    exact List.length_eq_zero.mp (by omega)

/-- Whitespace collapsing produces a whitespace-normal string. -/
theorem wsRun_out_wsNormed :
    ∀ (fuel : Nat) (s : Str), s.length ≤ fuel →
      wsNormed (rewriteSub matchWsRun fuel s) := by
  intro fuel
  induction fuel with
  | zero =>
    intro s hlen
    have hnil : s = [] := List.length_eq_zero.mp (Nat.le_zero.mp hlen)
    subst hnil
    intro t ht c cs' htc _
    rw [List.suffix_nil.mp ht] at htc
    cases htc
  | succ f ih =>
    intro s hlen
    cases s with
    | nil =>
      intro t ht c cs' htc _
      rw [rewriteSub_nil] at ht
      rw [List.suffix_nil.mp ht] at htc
      cases htc
    | cons a as =>
      cases hm : matchWsRun (a :: as) with
      | some rk =>
        obtain ⟨r, k⟩ := rk
        obtain ⟨hr, W, rest, hsW, hWne, hWws, hrh, hk, hdrop⟩ := matchWsRun_some hm
        have hdrop' : List.drop k as = rest := by
          have hd : List.drop (k + 1) (a :: as) = List.drop k as := List.drop_succ_cons
          rw [← hd]; exact hdrop
        have hlen2 : rest.length ≤ f := by
          have h1 := congrArg List.length hsW
          simp only [List.length_cons, List.length_append] at h1
          have h2 : 1 ≤ W.length := by
            cases W with
            | nil => exact absurd rfl hWne
            | cons _ _ => simp
          have hlen' : as.length + 1 ≤ f + 1 := by simpa using hlen
          omega
        have hout : rewriteSub matchWsRun (f + 1) (a :: as)
            = [' '] ++ rewriteSub matchWsRun f rest := by
          simp only [rewriteSub, hm]
          rw [hr, hdrop']
        rw [hout]
        intro t ht c cs' htc hwc
        rcases suffix_append_cases ht with h1 | ⟨a', ha', heq⟩
        · exact ih rest hlen2 t h1 c cs' htc hwc
        · rcases suffix_singleton ha' with rfl | rfl
          · rw [List.nil_append] at heq
            exact ih rest hlen2 t (heq ▸ List.suffix_rfl) c cs' htc hwc
          · rw [heq] at htc
            simp only [List.cons_append, List.nil_append, List.cons.injEq] at htc
            obtain ⟨hc1, hc2⟩ := htc
            refine ⟨hc1.symm, ?_⟩
            rw [← hc2]
            refine wsLen_zero_of_head (rewriteSub_head_not_ws matchWsRun ?_ f rest hrh)
            intro s' r' k' hm'
            obtain ⟨hr', W', rest', hs', hW'ne, hW'ws, _⟩ := matchWsRun_some hm'
            refine ⟨' ', [], hr', Or.inr ?_⟩
            cases W' with
            | nil => exact absurd rfl hW'ne
            | cons w ws =>
              exact ⟨w, ws ++ rest', by rw [hs']; rfl,
                hW'ws w (List.mem_cons_self _ _)⟩
      | none =>
        have hans : isWs a = false := matchWsRun_none_head hm
        have hout : rewriteSub matchWsRun (f + 1) (a :: as)
            = a :: rewriteSub matchWsRun f as := by
          simp only [rewriteSub, hm]
        rw [hout]
        intro t ht c cs' htc hwc
        rcases List.suffix_cons_iff.mp ht with h1 | h1
        · rw [h1] at htc
          simp only [List.cons.injEq] at htc
          rw [← htc.1] at hwc
          rw [hans] at hwc
          cases hwc
        · exact ih as (Nat.le_of_succ_le_succ (by simpa using hlen)) t h1 c cs' htc hwc

/-- A pass whose replacements are nonempty and whitespace-free preserves
whitespace-normality. -/
theorem rewriteSub_keeps_wsNormed (m : Str → Option (Str × Nat))
    (hr : ∀ s r k, m s = some (r, k) → r ≠ [] ∧ ∀ d ∈ r, isWs d = false) :
    ∀ (fuel : Nat) (s : Str), wsNormed s → wsNormed (rewriteSub m fuel s) := by
  intro fuel
  induction fuel with
  | zero => intro s hs; exact hs
  | succ f ih =>
    intro s hs
    cases s with
    | nil =>
      rw [rewriteSub_nil]
      exact hs
    | cons a as =>
      cases hm : m (a :: as) with
      | some rk =>
        obtain ⟨r, k⟩ := rk
        obtain ⟨hrne, hrws⟩ := hr _ _ _ hm
        have hsub : wsNormed (List.drop k as) := by
          refine wsNormed_mono ?_ hs
          exact (List.drop_suffix k as).trans (List.suffix_cons a as)
        have hout : rewriteSub m (f + 1) (a :: as)
            = r ++ rewriteSub m f (List.drop k as) := by
          simp only [rewriteSub, hm]
        rw [hout]
        intro t ht c cs' htc hwc
        rcases suffix_append_cases ht with h1 | ⟨a', ha', heq⟩
        · exact ih _ hsub t h1 c cs' htc hwc
        · cases a' with
          | nil =>
            rw [List.nil_append] at heq
            exact ih _ hsub t (heq ▸ List.suffix_rfl) c cs' htc hwc
          | cons e es =>
            exfalso
            rw [heq] at htc
            simp only [List.cons_append, List.cons.injEq] at htc
            have he : e ∈ r := ha'.subset (List.mem_cons_self e es)
            rw [← htc.1] at hwc
            rw [hrws e he] at hwc
            cases hwc
      | none =>
        have hout : rewriteSub m (f + 1) (a :: as) = a :: rewriteSub m f as := by
          simp only [rewriteSub, hm]
        rw [hout]
        have hsub : wsNormed as := wsNormed_mono (List.suffix_cons a as) hs
        intro t ht c cs' htc hwc
        rcases List.suffix_cons_iff.mp ht with h1 | h1
        · rw [h1] at htc
          simp only [List.cons.injEq] at htc
          obtain ⟨hc1, hc2⟩ := htc
          rw [← hc1] at hwc
          obtain ⟨hsp, hwl⟩ := hs (a :: as) List.suffix_rfl a as rfl hwc
          refine ⟨hc1 ▸ hsp, ?_⟩
          rw [← hc2]
          refine wsLen_zero_of_head (rewriteSub_head_not_ws m ?_ f as
            (wsLen_zero_head hwl)) 
          intro s' r' k' hm'
          obtain ⟨hrne', hrws'⟩ := hr _ _ _ hm'
          cases r' with
          | nil => exact absurd rfl hrne'
          | cons x xs =>
            exact ⟨x, xs, rfl, Or.inl (hrws' x (List.mem_cons_self x xs))⟩
        · exact ih as hsub t h1 c cs' htc hwc

/-- On a whitespace-normal string the collapsing pass replaces each single
space by itself, so it is the identity. -/
theorem applySub_wsRun_id_of_wsNormed {s : Str} (h : wsNormed s) :
    applySub matchWsRun s = s := by
  apply rewriteSub_id_of_selfrepl
  intro t ht r k hm
  obtain ⟨hr, W, rest, hsplit, hWne, hWws, hrh, hk, hdrop⟩ := matchWsRun_some hm
  cases W with
  | nil => exact absurd rfl hWne
  | cons w ws =>
    have hw : isWs w = true := hWws w (List.mem_cons_self _ _)
    have hts : t = w :: (ws ++ rest) := by rw [hsplit]; rfl
    obtain ⟨hsp, hwl⟩ := wsNormed_mono ht h t List.suffix_rfl w (ws ++ rest) hts hw
    have hwsnil : ws = [] := by
      cases ws with
      | nil => rfl
      | cons w₁ ws₁ =>
        have hw₁ : isWs w₁ = true := hWws w₁ (by simp)
        rw [show w₁ :: ws₁ ++ rest = w₁ :: (ws₁ ++ rest) from rfl] at hwl
        rw [wsLen, List.takeWhile_cons, hw₁] at hwl
        simp at hwl
    have hk0 : k = 0 := by
      rw [hwsnil] at hk
      simp only [List.length_cons, List.length_nil] at hk
      omega
    rw [hr, hk0, hts, hwsnil, hsp]
    rfl

/-- The matcher fires at no suffix of `s`. -/
def noMatchOn (m : Str → Option (Str × Nat)) (s : Str) : Prop :=
  ∀ t, t <:+ s → m t = none

theorem noMatchOn_mono {m : Str → Option (Str × Nat)} {s t : Str}
    (h : t <:+ s) (hs : noMatchOn m s) : noMatchOn m t :=
  fun u hu => hs u (hu.trans h)

theorem tokWsBrace_fires_bs {tok tt : Str} (htok : tok = '\\' :: tt) :
    ∀ s r k, matchTokWsBrace tok s = some (r, k) → ∃ t', s = '\\' :: t' := by
  intro s r k h
  obtain ⟨_, W, rest, hs, _⟩ := matchTokWsBrace_some h
  rw [htok] at hs
  exact ⟨tt ++ (W ++ lb :: rest), by rw [hs]; rfl⟩

theorem tokWsBrace_repl_bs {tok tt : Str} (htok : tok = '\\' :: tt) :
    ∀ s r k, matchTokWsBrace tok s = some (r, k) → ∃ t', r = '\\' :: t' := by
  intro s r k h
  obtain ⟨hr, _⟩ := matchTokWsBrace_some h
  rw [htok] at hr
  exact ⟨tt ++ [lb], by rw [hr]; rfl⟩


/--
Central creation-freeness lemma: scanning the tail with a backslash-anchored
rewriter `m₂` whose replacements start with a backslash cannot create a
`tok␣{`-match at a position where the original text had none.
-/
theorem matchTokWsBrace_none_of_rewrite {tok tt : Str} (htok : tok = '\\' :: tt)
    (hok : ∀ c ∈ tt, okChar c)
    (m₂ : Str → Option (Str × Nat))
    (hfire2 : ∀ s r k, m₂ s = some (r, k) → ∃ t', s = '\\' :: t')
    (hrepl2 : ∀ s r k, m₂ s = some (r, k) → ∃ t', r = '\\' :: t')
    (f : Nat) (c : Char) (cs : Str)
    (hnone : matchTokWsBrace tok (c :: cs) = none) :
    matchTokWsBrace tok (c :: rewriteSub m₂ f cs) = none := by
  cases hfireQ : matchTokWsBrace tok (c :: rewriteSub m₂ f cs) with
  | none => rfl
  | some rk =>
    exfalso
    obtain ⟨r, k⟩ := rk
    obtain ⟨hrq, W, rest, hsplit, hWne, hWws, hk, hdropq⟩ := matchTokWsBrace_some hfireQ
    rw [htok, List.cons_append] at hsplit
    have hc : c = '\\' := by injection hsplit
    have hq0 : rewriteSub m₂ f cs = tt ++ (W ++ lb :: rest) := by
      injection hsplit
    have hrepl' : ∀ s r k, m₂ s = some (r, k) →
        ∃ c t, r = c :: t ∧ (isWs c = true ∨ c = '\\') := by
      intro s r' k' hm'
      obtain ⟨t', ht'⟩ := hrepl2 s r' k' hm'
      exact ⟨'\\', t', ht', Or.inr rfl⟩
    obtain ⟨htt, heq2⟩ := rewriteSub_reflect_front m₂ hrepl' tt hok f cs
      ⟨W ++ lb :: rest, hq0.symm⟩
    obtain ⟨rrx, hrrx⟩ := htt
    have hrr : List.drop tt.length cs = rrx := by
      rw [← hrrx]; exact List.drop_left tt rrx
    rw [hrr] at heq2
    have hq2 : rewriteSub m₂ (f - tt.length) rrx = W ++ lb :: rest :=
      List.append_cancel_left (hq0.symm.trans heq2).symm
    have hccs : c :: cs = tok ++ rrx := by
      rw [hc, htok, List.cons_append, ← hrrx]
    rw [hccs] at hnone
    simp only [matchTokWsBrace, startsWith_self_append, if_true, List.drop_left] at hnone
    have hnf : ∀ i, i < (List.takeWhile isWs rrx).length →
        m₂ (List.drop i (List.takeWhile isWs rrx) ++ List.dropWhile isWs rrx) = none := by
      intro i hi
      cases hm2 : m₂ (List.drop i (List.takeWhile isWs rrx) ++ List.dropWhile isWs rrx) with
      | none => rfl
      | some rk2 =>
        exfalso
        obtain ⟨r2, k2⟩ := rk2
        obtain ⟨t', ht'⟩ := hfire2 _ r2 k2 hm2
        have hdne : List.drop i (List.takeWhile isWs rrx) ≠ [] := by
          rw [Ne, List.drop_eq_nil_iff]
          omega
        have hhead : (List.drop i (List.takeWhile isWs rrx)).head? = some '\\' := by
          rw [← head?_append_left hdne, ht']
          rfl
        have hmem : '\\' ∈ List.takeWhile isWs rrx :=
          (List.drop_subset i _) (mem_of_head? hhead)
        exact absurd (List.mem_takeWhile_imp hmem) (by decide)
    have hcopy := rewriteSub_copy m₂ (List.takeWhile isWs rrx) (List.dropWhile isWs rrx)
      hnf (f - tt.length)
    rw [List.takeWhile_append_dropWhile] at hcopy
    rw [hcopy] at hq2
    cases hrest : List.dropWhile isWs rrx with
    | nil =>
      rw [hrest, rewriteSub_nil, List.append_nil] at hq2
      have hlbmem : lb ∈ List.takeWhile isWs rrx := by
        rw [hq2]; simp
      exact absurd (List.mem_takeWhile_imp hlbmem) (by decide)
    | cons d ds =>
      have hd : isWs d = false := by
        refine head_dropWhile_false isWs rrx d ?_
        rw [hrest]; rfl
      rw [hrest] at hq2
      have hq0head : ∃ e q₀',
          rewriteSub m₂ (f - tt.length - (List.takeWhile isWs rrx).length) (d :: ds)
            = e :: q₀' ∧ (e = '\\' ∨ e = d) := by
        cases hfuel : f - tt.length - (List.takeWhile isWs rrx).length with
        | zero => exact ⟨d, ds, rfl, Or.inr rfl⟩
        | succ g =>
          cases hm2 : m₂ (d :: ds) with
          | some rk2 =>
            obtain ⟨r2, k2⟩ := rk2
            obtain ⟨t2, ht2⟩ := hrepl2 _ _ _ hm2
            refine ⟨'\\', t2 ++ rewriteSub m₂ g (List.drop k2 ds), ?_, Or.inl rfl⟩
            simp only [rewriteSub, hm2, ht2]
            rfl
          | none =>
            exact ⟨d, rewriteSub m₂ g ds, by simp only [rewriteSub, hm2], Or.inr rfl⟩
      obtain ⟨e, q₀', hq₀, he⟩ := hq0head
      rw [hq₀] at hq2
      have hews : isWs e = false := by
        rcases he with rfl | rfl
        · decide
        · exact hd
      have htw1 : List.takeWhile isWs (List.takeWhile isWs rrx ++ e :: q₀')
          = List.takeWhile isWs rrx :=
        takeWhile_append_stop (fun x hx => List.mem_takeWhile_imp hx) hews q₀'
      have htw2 : List.takeWhile isWs (W ++ lb :: rest) = W :=
        takeWhile_append_stop hWws (by decide) rest
      have hWeq : List.takeWhile isWs rrx = W := by
        rw [← htw1, hq2, htw2]
      rw [hWeq] at hq2
      have htail : e :: q₀' = lb :: rest := List.append_cancel_left hq2
      rcases he with rfl | hed
      · have hlbe : '\\' = lb := by injection htail
        exact absurd hlbe (by decide)
      · have hdlb : d = lb := by
          rw [← hed]
          injection htail
        have h1 : wsLen rrx ≥ 1 := by
          have hne : List.takeWhile isWs rrx ≠ [] := by
            rw [hWeq]; exact hWne
          have hpos : 0 < (List.takeWhile isWs rrx).length := List.length_pos.mpr hne
          unfold wsLen
          omega
        have h2 : List.drop (wsLen rrx) rrx = d :: ds := by
          rw [drop_wsLen, hrest]
        rw [if_pos h1, h2, hdlb] at hnone
        rw [show startsWith [lb] (lb :: ds) = true from startsWith_self_append [lb] ds]
          at hnone
        simp at hnone

theorem tokWsBrace_nil {tok tt : Str} (htok : tok = '\\' :: tt) :
    matchTokWsBrace tok [] = none := by
  rw [htok]; rfl

theorem tokWsBrace_none_okHead {tok tt : Str} (htok : tok = '\\' :: tt) {u : Str}
    (h : ∀ c, u.head? = some c → okChar c) : matchTokWsBrace tok u = none :=
  nofire_of_okHead _ (fireHead_tokWsBrace htok) u h

/-- After a full `tok␣{` pass, no match of the same pattern remains anywhere
in the output. -/
theorem tokWsBrace_out_noMatch {tok tt : Str} (htok : tok = '\\' :: tt)
    (hok : ∀ c ∈ tt, okChar c) :
    ∀ (fuel : Nat) (s : Str), s.length ≤ fuel →
      noMatchOn (matchTokWsBrace tok) (rewriteSub (matchTokWsBrace tok) fuel s) := by
  intro fuel
  induction fuel with
  | zero =>
    intro s hlen
    have hnil : s = [] := List.length_eq_zero.mp (Nat.le_zero.mp hlen)
    subst hnil
    intro t ht
    rw [List.suffix_nil.mp ht]
    exact tokWsBrace_nil htok
  | succ f ih =>
    intro s hlen
    cases s with
    | nil =>
      intro t ht
      rw [rewriteSub_nil] at ht
      rw [List.suffix_nil.mp ht]
      exact tokWsBrace_nil htok
    | cons a as =>
      cases hm : matchTokWsBrace tok (a :: as) with
      | some rk =>
        obtain ⟨r, k⟩ := rk
        obtain ⟨hr, W, rest, hsW, hWne, hWws, hk, hdrop⟩ := matchTokWsBrace_some hm
        have hlen2 : rest.length ≤ f := by
          have hld := congrArg List.length hdrop
          rw [List.length_drop] at hld
          simp only [List.length_cons] at hld
          simp only [List.length_cons] at hlen
          omega
        have hdrop' : List.drop k as = rest := by
          rw [← hdrop]; exact (List.drop_succ_cons).symm
        have hout : rewriteSub (matchTokWsBrace tok) (f + 1) (a :: as)
            = (tok ++ [lb]) ++ rewriteSub (matchTokWsBrace tok) f rest := by
          simp only [rewriteSub, hm]
          rw [hr, hdrop']
        rw [hout]
        intro t ht
        rcases suffix_append_cases ht with h1 | ⟨a', ha', heq⟩
        · exact ih rest hlen2 t h1
        · rw [show tok ++ [lb] = '\\' :: (tt ++ [lb]) from by rw [htok]; rfl] at ha'
          rcases List.suffix_cons_iff.mp ha' with h2 | h2
          · rw [heq, h2]
            rw [show ('\\' :: (tt ++ [lb])) ++ rewriteSub (matchTokWsBrace tok) f rest
                = tok ++ (lb :: rewriteSub (matchTokWsBrace tok) f rest) from by
              rw [htok]
              simp]
            exact tokWsBrace_nofire_nonws (by decide) _
          · cases a' with
            | nil =>
              rw [List.nil_append] at heq
              exact ih rest hlen2 t (heq ▸ List.suffix_rfl)
            | cons x xs =>
              have hx : x ∈ tt ++ [lb] := h2.subset (List.mem_cons_self _ _)
              have hxok : okChar x := by
                rcases List.mem_append.mp hx with hx1 | hx1
                · exact hok x hx1
                · have : x = lb := by simpa using hx1
                  rw [this]; exact ⟨by decide, by decide⟩
              rw [heq]
              refine tokWsBrace_none_okHead htok ?_
              intro c hc
              simp only [List.cons_append, List.head?_cons, Option.some.injEq] at hc
              rw [← hc]
              exact hxok
      | none =>
        have hout : rewriteSub (matchTokWsBrace tok) (f + 1) (a :: as)
            = a :: rewriteSub (matchTokWsBrace tok) f as := by
          simp only [rewriteSub, hm]
        rw [hout]
        intro t ht
        rcases List.suffix_cons_iff.mp ht with h1 | h1
        · rw [h1]
          exact matchTokWsBrace_none_of_rewrite htok hok (matchTokWsBrace tok)
            (tokWsBrace_fires_bs htok) (tokWsBrace_repl_bs htok) f a as hm
        · exact ih as (by simp only [List.length_cons] at hlen; omega) t h1

theorem beginTok_nofire_endRepl (x : Str) :
    matchTokWsBrace bsBeginTok (bsEndTok ++ [lb] ++ x) = none := by
  have hpre : ¬ (bsBeginTok <+: bsEndTok ++ [lb] ++ x) := by
    rw [show bsBeginTok = '\\' :: 'b' :: "egin".toList from rfl,
        show bsEndTok ++ [lb] ++ x = '\\' :: 'e' :: ('n' :: 'd' :: lb :: x) from rfl]
    simp [List.cons_prefix_cons]
  cases hsw : startsWith bsBeginTok (bsEndTok ++ [lb] ++ x) with
  | false =>
    simp only [matchTokWsBrace]
    rw [hsw]
    simp
  | true => exact absurd ((startsWith_iff _ _).mp hsw) hpre

/-- The `\end␣{` pass cannot create a `\begin␣{` match. -/
theorem endPass_keeps_noBeginMatch :
    ∀ (fuel : Nat) (s : Str),
      noMatchOn (matchTokWsBrace bsBeginTok) s →
      noMatchOn (matchTokWsBrace bsBeginTok)
        (rewriteSub (matchTokWsBrace bsEndTok) fuel s) := by
  intro fuel
  induction fuel with
  | zero => intro s hs; exact hs
  | succ f ih =>
    intro s hs
    cases s with
    | nil => rw [rewriteSub_nil]; exact hs
    | cons a as =>
      cases hm : matchTokWsBrace bsEndTok (a :: as) with
      | some rk =>
        obtain ⟨r, k⟩ := rk
        obtain ⟨hr, W, rest, hsW, hWne, hWws, hk, hdrop⟩ := matchTokWsBrace_some hm
        have hdrop' : List.drop k as = rest := by
          rw [← hdrop]; exact (List.drop_succ_cons).symm
        have hrestsuf : rest <:+ a :: as := by
          rw [← hdrop]; exact List.drop_suffix _ _
        have hout : rewriteSub (matchTokWsBrace bsEndTok) (f + 1) (a :: as)
            = (bsEndTok ++ [lb]) ++ rewriteSub (matchTokWsBrace bsEndTok) f rest := by
          simp only [rewriteSub, hm]
          rw [hr, hdrop']
        rw [hout]
        have hrest' := ih rest (noMatchOn_mono hrestsuf hs)
        intro t ht
        rcases suffix_append_cases ht with h1 | ⟨a', ha', heq⟩
        · exact hrest' t h1
        · rw [show bsEndTok ++ [lb] = '\\' :: ("end".toList ++ [lb]) from rfl] at ha'
          rcases List.suffix_cons_iff.mp ha' with h2 | h2
          · rw [heq, h2]
            rw [show ('\\' :: ("end".toList ++ [lb]))
                  ++ rewriteSub (matchTokWsBrace bsEndTok) f rest
                = bsEndTok ++ [lb] ++ rewriteSub (matchTokWsBrace bsEndTok) f rest from by
              simp [bsEndTok]]
            exact beginTok_nofire_endRepl _
          · cases a' with
            | nil =>
              rw [List.nil_append] at heq
              exact hrest' t (heq ▸ List.suffix_rfl)
            | cons x xs =>
              have hx : x ∈ "end".toList ++ [lb] := h2.subset (List.mem_cons_self _ _)
              have hxok : okChar x := by
                have hall : ∀ c ∈ "end".toList ++ [lb], okChar c := by decide
                exact hall x hx
              rw [heq]
              refine tokWsBrace_none_okHead
                (show bsBeginTok = '\\' :: "begin".toList from rfl) ?_
              intro c hc
              simp only [List.cons_append, List.head?_cons, Option.some.injEq] at hc
              rw [← hc]
              exact hxok
      | none =>
        have hout : rewriteSub (matchTokWsBrace bsEndTok) (f + 1) (a :: as)
            = a :: rewriteSub (matchTokWsBrace bsEndTok) f as := by
          simp only [rewriteSub, hm]
        rw [hout]
        have has := ih as (noMatchOn_mono (List.suffix_cons a as) hs)
        intro t ht
        rcases List.suffix_cons_iff.mp ht with h1 | h1
        · rw [h1]
          exact matchTokWsBrace_none_of_rewrite
            (show bsBeginTok = '\\' :: "begin".toList from rfl) (by decide)
            (matchTokWsBrace bsEndTok)
            (tokWsBrace_fires_bs (show bsEndTok = '\\' :: "end".toList from rfl))
            (tokWsBrace_repl_bs (show bsEndTok = '\\' :: "end".toList from rfl))
            f a as (hs (a :: as) List.suffix_rfl)
        · exact has t h1

theorem wsNormed_cleanTail (s : Str) : wsNormed (cleanTail s) := by
  have hbr : ∀ (tok tt : Str), tok = '\\' :: tt →
      (∀ d ∈ tok ++ [lb], isWs d = false) →
      ∀ s' r k, matchTokWsBrace tok s' = some (r, k) →
        r ≠ [] ∧ ∀ d ∈ r, isWs d = false := by
    intro tok tt htok hall s' r k hm
    obtain ⟨hr, _⟩ := matchTokWsBrace_some hm
    refine ⟨?_, ?_⟩
    · rw [hr, htok]; simp
    · rw [hr]; exact hall
  exact rewriteSub_keeps_wsNormed _ (hbr bsEndTok "end".toList rfl (by decide)) _ _
    (rewriteSub_keeps_wsNormed _ (hbr bsBeginTok "begin".toList rfl (by decide)) _ _
      (wsRun_out_wsNormed _ _ le_rfl))

theorem noBeginMatch_cleanTail (s : Str) :
    noMatchOn (matchTokWsBrace bsBeginTok) (cleanTail s) := by
  refine endPass_keeps_noBeginMatch _ _ ?_
  exact tokWsBrace_out_noMatch rfl (by decide) _ _ le_rfl

theorem noEndMatch_cleanTail (s : Str) :
    noMatchOn (matchTokWsBrace bsEndTok) (cleanTail s) :=
  tokWsBrace_out_noMatch rfl (by decide) _ _ le_rfl

theorem cleanTail_idem_pointwise (s : Str) : cleanTail (cleanTail s) = cleanTail s := by
  have hH : applySub matchWsRun (cleanTail s) = cleanTail s :=
    applySub_wsRun_id_of_wsNormed (wsNormed_cleanTail s)
  have hI : applySub (matchTokWsBrace bsBeginTok) (cleanTail s) = cleanTail s :=
    applySub_id_of_nofire (noBeginMatch_cleanTail s)
  have hJ : applySub (matchTokWsBrace bsEndTok) (cleanTail s) = cleanTail s :=
    applySub_id_of_nofire (noEndMatch_cleanTail s)
  show applySub (matchTokWsBrace bsEndTok)
      (applySub (matchTokWsBrace bsBeginTok) (applySub matchWsRun (cleanTail s)))
    = cleanTail s
  rw [hH, hI, hJ]

theorem clean_idem_of_difFree {t : Str} (h : difFree t) :
    clean_difcommands (clean_difcommands t) = clean_difcommands t := by
  rw [clean_eq_cleanTail_of_difFree h]
  rw [clean_eq_cleanTail_of_difFree (difFree_cleanTail h)]
  exact cleanTail_idem_pointwise t

/-- `\DIFdelend \DIFaddbegin \begin {thebibliography}`: input on which the
cleanup is not idempotent. -/
def cEx3 : Str :=
  difDelendTok ++ ' ' :: difAddbeginTok ++ ' ' :: bsBeginTok ++ ' ' :: thebibBraced

set_option maxRecDepth 10000 in
/--
C3 counterexample: `clean_difcommands` is not idempotent.  On
`\DIFdelend \DIFaddbegin \begin {thebibliography}` the first application
keeps the two DIF tokens (the leading `\s*` of the pass-A pattern has
already been consumed as part of earlier normalisation when the scanner
reaches them), while the second application removes them.
-/
theorem C3_counterexample :
    clean_difcommands (clean_difcommands cEx3) ≠ clean_difcommands cEx3 := by decide

/--
C3 (amended): the cleanup transformation is idempotent on every input that
contains no occurrence of the four-character substring `\DIF`.
-/
theorem C3_idempotent_on_difFree (t : Str) (h : ¬ (DIFpat <:+: t)) :
    clean_difcommands (clean_difcommands t) = clean_difcommands t :=
  clean_idem_of_difFree h

/-- `a\n\nb \begin\t{`: a `\DIF`-free input exercising the whitespace and
brace fix-up passes. -/
def wEx3 : Str := 'a' :: '\n' :: '\n' :: 'b' :: ' ' :: bsBeginTok ++ '\t' :: [lb]

set_option maxRecDepth 10000 in
theorem C3_idempotent_on_difFree_witness :
    clean_difcommands (clean_difcommands wEx3) = clean_difcommands wEx3 :=
  C3_idempotent_on_difFree wEx3 (by decide)

/-! ### Model of `tex_concatenator.py` -/

/-- Python `str.lstrip()`. -/
def lstrip (s : Str) : Str := s.dropWhile isWs

/-- Python `str.rstrip()`. -/
def rstrip (s : Str) : Str := (s.reverse.dropWhile isWs).reverse

/-- Python `str.strip()`. -/
def pstrip (s : Str) : Str := rstrip (lstrip s)

/-- Python `str.split(sep)` for a one-character separator. -/
def splitOn (sep : Char) : Str → List Str
  | [] => [[]]
  | c :: cs =>
    if c = sep then [] :: splitOn sep cs
    else
      match splitOn sep cs with
      | l :: ls => (c :: l) :: ls
      | [] => [[c]]

/-- Python `sep.join(parts)` for a one-character separator. -/
def joinOn (sep : Char) : List Str → Str
  | [] => []
  | [l] => l
  | l :: ls => l ++ sep :: joinOn sep ls

theorem splitOn_ne_nil (sep : Char) (s : Str) : splitOn sep s ≠ [] := by
  cases s with
  | nil => simp [splitOn]
  | cons c cs =>
    simp only [splitOn]
    split
    · simp
    · split
      · simp
      · simp

theorem joinOn_splitOn (sep : Char) (s : Str) : joinOn sep (splitOn sep s) = s := by
  induction s with
  | nil => rfl
  | cons c cs ih =>
    simp only [splitOn]
    split
    case isTrue hc =>
      rw [hc]
      cases hs : splitOn sep cs with
      | nil => exact absurd hs (splitOn_ne_nil sep cs)
      | cons l ls =>
        have hjoin : joinOn sep ([] :: l :: ls) = sep :: joinOn sep (l :: ls) := by
          cases ls <;> rfl
        rw [hjoin, ← hs, ih]
    case isFalse hc =>
      cases hs : splitOn sep cs with
      | nil => exact absurd hs (splitOn_ne_nil sep cs)
      | cons l ls =>
        have hjoin : joinOn sep ((c :: l) :: ls) = c :: joinOn sep (l :: ls) := by
          cases ls <;> rfl
        rw [hjoin, ← hs, ih]

/-- Last component of a path (`Path.name`). -/
def pname (p : Str) : Str := (splitOn '/' p).getLastD []

/-- `Path.parent` as a string: everything before the last separator, or `.`
when there is none. -/
def parentDir (p : Str) : Str :=
  match splitOn '/' p with
  | [] => ['.']
  | [_] => ['.']
  | ls => joinOn '/' ls.dropLast

/-- `Path(dir) / name`: `.` is the neutral directory and empty components
are dropped, as in `pathlib`. -/
def pathJoin (dir name : Str) : Str :=
  if name = [] then dir
  else if dir = ['.'] then name
  else dir ++ '/' :: name

/-- `Path.suffix` of a name: from the last dot, when that dot is neither the
first nor the last character. -/
def psuffix (name : Str) : Str :=
  if '.' ∈ name then
    let k := (name.reverse.takeWhile (fun c => c != '.')).length
    if 1 ≤ name.length - 1 - k ∧ 1 ≤ k then List.drop (name.length - 1 - k) name
    else []
  else []

/-- `Path.stem` of a name. -/
def pstem (name : Str) : Str := List.take (name.length - (psuffix name).length) name

/-- `Path.with_suffix(".tex")` on a path string. -/
def withSuffixTex (p : Str) : Str :=
  List.take (p.length - (psuffix (pname p)).length) p ++ '.' :: "tex".toList

/-- The accent map of `transform_accents`, in source order. -/
def accentMap : List (Char × Str) :=
  [('á', [lb, '\\', '\x27', 'a', rb]),
   ('é', [lb, '\\', '\x27', 'e', rb]),
   ('í', [lb, '\\', '\x27', 'i', rb]),
   ('ó', [lb, '\\', '\x27', 'o', rb]),
   ('ú', [lb, '\\', '\x27', 'u', rb]),
   ('Á', [lb, '\\', '\x27', 'A', rb]),
   ('É', [lb, '\\', '\x27', 'E', rb]),
   ('Í', [lb, '\\', '\x27', 'I', rb]),
   ('Ó', [lb, '\\', '\x27', 'O', rb]),
   ('Ú', [lb, '\\', '\x27', 'U', rb]),
   ('ñ', [lb, '\\', '~', 'n', rb]),
   ('Ñ', [lb, '\\', '~', 'N', rb]),
   ('ü', [lb, '\\', '"', 'u', rb]),
   ('Ü', [lb, '\\', '"', 'U', rb]),
   ('ö', [lb, '\\', '"', 'o', rb]),
   ('Ö', [lb, '\\', '"', 'O', rb]),
   ('ä', [lb, '\\', '"', 'a', rb]),
   ('Ä', [lb, '\\', '"', 'A', rb])]

/-- `transform_accents`: the eighteen `str.replace` passes in source order. -/
def transform_accents (text : Str) : Str :=
  accentMap.foldl (fun t p => pyReplace t [p.1] p.2) text

/-- The token `\input{` (7 characters). -/
def inputOpen : Str := '\\' :: "input".toList ++ [lb]

/-- The token `\include{` (9 characters). -/
def includeOpen : Str := '\\' :: "include".toList ++ [lb]

/-- Match of `\\(input|include)\{(.*?)\}` at the head of `s`: the second
captured group (the lazy group runs to the first closing brace). -/
def matchDirectiveAt (s : Str) : Option Str :=
  if startsWith inputOpen s then
    let r := List.drop 7 s
    let body := r.takeWhile notRb
    if startsWith [rb] (List.drop body.length r) then some body else none
  else if startsWith includeOpen s then
    let r := List.drop 9 s
    let body := r.takeWhile notRb
    if startsWith [rb] (List.drop body.length r) then some body else none
  else none

/-- `re.search(r'\\(input|include)\{(.*?)\}', line)`: second group of the
leftmost match. -/
def findDirective : Str → Option Str
  | [] => none
  | c :: cs =>
    match matchDirectiveAt (c :: cs) with
    | some b => some b
    | none => findDirective cs

/-- Warning text printed for a missing included file. -/
def warnInclude (p : Str) : Str :=
  "Warning: Could not find included file: ".toList ++ p

/-- Content lookup in the modelled file system (`Path.exists` plus
`read_text`). -/
def fsRead (fs : List (Str × Str)) (p : Str) : Option Str :=
  (fs.find? (fun q => decide (q.1 = p))).map Prod.snd

/-- One iteration of the line loop of `process_file`.  `rec` is the
recursive call used for an existing included file; the second component
collects the warnings printed. -/
def processLine1 (fs : List (Str × Str)) (rec : Str → Option (Str × List Str))
    (dir line : Str) : Option (List Str × List Str) :=
  if pstrip line = [] then some ([line], [])
  else if startsWith ['%'] (lstrip line) then some ([line], [])
  else
    match findDirective line with
    | none => some ([line], [])
    | some inc =>
      let indent := line.takeWhile isWs
      let ipath := withSuffixTex (pathJoin dir inc)
      match fsRead fs ipath with
      | some _ =>
        match rec ipath with
        | none => none
        | some cw =>
          some ((splitOn '\n' cw.1).map (fun l => indent ++ l), cw.2)
      | none => some ([line], [warnInclude ipath])

/-- `process_file` with explicit recursion fuel, returning the flattened
text and the warnings printed.  `none` models fuel exhaustion (cyclic
includes hitting the recursion limit) or a failed read of `path`. -/
def process_file (fs : List (Str × Str)) : Nat → Str → Option (Str × List Str)
  | 0, _ => none
  | fuel + 1, path =>
    match fsRead fs path with
    | none => none
    | some raw =>
      let content := transform_accents raw
      let dir := parentDir path
      match (splitOn '\n' content).foldr
          (fun line acc =>
            match acc with
            | none => none
            | some lsws =>
              match processLine1 fs (fun p => process_file fs fuel p) dir line with
              | none => none
              | some lw => some (lw.1 ++ lsws.1, lw.2 ++ lsws.2))
          (some ([], [])) with
      | none => none
      | some lsws => some (joinOn '\n' lsws.1, lsws.2)

theorem processLine1_id {fs : List (Str × Str)} {rec : Str → Option (Str × List Str)}
    {dir l : Str} (h : findDirective l = none) :
    processLine1 fs rec dir l = some ([l], []) := by
  unfold processLine1
  split
  · rfl
  · split
    · rfl
    · rw [h]

theorem foldr_lines_id (fs : List (Str × Str)) (rec : Str → Option (Str × List Str))
    (dir : Str) : ∀ lines : List Str,
    (∀ l ∈ lines, findDirective l = none) →
    lines.foldr
      (fun line acc =>
        match acc with
        | none => none
        | some lsws =>
          match processLine1 fs rec dir line with
          | none => none
          | some lw => some (lw.1 ++ lsws.1, lw.2 ++ lsws.2))
      (some ([], [])) = some (lines, []) := by
  intro lines
  induction lines with
  | nil => intro _; rfl
  | cons l ls ih =>
    intro h
    simp only [List.foldr_cons]
    rw [ih (fun x hx => h x (List.mem_cons_of_mem l hx))]
    rw [processLine1_id (h l (List.mem_cons_self l ls))]
    rfl

/--
C4 (amended): when no line of the accent-transliterated file content matches
the include-directive pattern, `process_file` returns exactly the
transliterated content, with no warnings.  (The hypothesis must be on the
transliterated lines: transliteration can create a directive that the raw
line does not contain, see the counterexample.)
-/
theorem C4_no_directives (fs : List (Str × Str)) (fuel : Nat) (path raw : Str)
    (hread : fsRead fs path = some raw)
    (hnd : ∀ l ∈ splitOn '\n' (transform_accents raw), findDirective l = none) :
    process_file fs (fuel + 1) path = some (transform_accents raw, []) := by
  simp only [process_file]
  rw [hread]
  dsimp only
  rw [foldr_lines_id fs (fun p => process_file fs fuel p) (parentDir path) _ hnd]
  dsimp only
  rw [joinOn_splitOn]

/-- `\inputé{x}`: raw content with no include directive. -/
def mainC4 : Str := '\\' :: "input".toList ++ 'é' :: lb :: 'x' :: [rb]

/-- The path of the main file in the C4 example file system. -/
def mainPathC4 : Str := "proj/main.tex".toList

/-- `proj/\'e.tex`: the file the transliterated directive points at. -/
def ePathC4 : Str := "proj/".toList ++ '\\' :: '\x27' :: 'e' :: ".tex".toList

/-- File system for the C4 counterexample. -/
def fsC4 : List (Str × Str) := [(mainPathC4, mainC4), (ePathC4, ['Z'])]

set_option maxRecDepth 10000 in
/--
C4 counterexample: the raw file `\inputé{x}` contains no include directive
on any line, yet flattening is not the identity on its transliteration:
`é` transliterates to `{\'e}`, producing `\input{\'e}{x}`, which matches the
directive pattern; the file `proj/\'e.tex` exists, so its content replaces
the line.
-/
theorem C4_counterexample :
    (∀ l ∈ splitOn '\n' mainC4, findDirective l = none) ∧
    process_file fsC4 2 mainPathC4 = some (['Z'], []) ∧
    transform_accents mainC4 ≠ ['Z'] := by decide

/-- File system for the C4 witness. -/
def fsC4w : List (Str × Str) := [(['m'], "caf".toList ++ ['é'])]

set_option maxRecDepth 10000 in
theorem C4_no_directives_witness :
    process_file fsC4w 1 ['m'] = some (transform_accents ("caf".toList ++ ['é']), []) :=
  C4_no_directives fsC4w 0 ['m'] ("caf".toList ++ ['é']) (by decide) (by decide)

/--
C8: a line whose first non-whitespace character is `%` passes through the
line loop of `process_file` unchanged: no include substitution is attempted
(the recursive call `rec` is never consulted) and no warning is emitted,
whatever the file system contains.
-/
theorem C8_comment_line (fs : List (Str × Str)) (rec : Str → Option (Str × List Str))
    (dir line : Str) (h : startsWith ['%'] (lstrip line) = true) :
    processLine1 fs rec dir line = some ([line], []) := by
  have hne : ¬ (pstrip line = []) := by
    intro hc
    obtain ⟨t, ht⟩ := (startsWith_iff _ _).mp h
    unfold pstrip rstrip at hc
    rw [← ht] at hc
    have h0 : List.dropWhile isWs (((['%'] ++ t) : Str).reverse) = [] := by
      cases hd : List.dropWhile isWs (((['%'] ++ t) : Str).reverse) with
      | nil => rfl
      | cons a b => rw [hd] at hc; simp at hc
    have hall := List.dropWhile_eq_nil_iff.mp h0
    have hpc : isWs '%' = true := hall '%' (by simp)
    exact absurd hpc (by decide)
  unfold processLine1
  rw [if_neg hne, if_pos h]

/-- The line `␣%␣\input{foo}`. -/
def lineC8 : Str := ' ' :: '%' :: ' ' :: inputOpen ++ "foo".toList ++ [rb]

theorem C8_comment_line_witness :
    processLine1 [] (fun _ => none) [] lineC8 = some ([lineC8], []) :=
  C8_comment_line [] (fun _ => none) [] lineC8 (by decide)

/-! ### Working-directory discipline of `generate_bbl_content` -/

/-- The system operations performed by the compile-and-read body of
`generate_bbl_content`: environment updates, `os.system` calls (which run
child processes) and file reads.  None of them is an `os.chdir`, so none
touches the working directory of the running process. -/
inductive SysOp where
  | setEnv (key value : Str)
  | system (cmd : Str)
  | readFile (path : Str)

/-- Effect of a body operation on the current working directory. -/
def applyOp (cwd : Str) (_ : SysOp) : Str := cwd

/-- `os.chdir`. -/
def chdir (d _cwd : Str) : Str := d

/--
The working-directory skeleton of `generate_bbl_content`: save the current
directory, `os.chdir` into the copied project, run the body operations (the
`try` block, cut short at index `raiseAt` when the body raises an
exception), and `os.chdir` back to the saved directory in the `finally`
block.  The value is the working directory after the call returns or
propagates its exception.
-/
def generate_bbl_content_cwd (temp_project : Str) (bodyOps : List SysOp)
    (raiseAt : Option Nat) (cwd : Str) : Str :=
  let original_dir := cwd
  let cwd1 := chdir temp_project cwd
  let executed :=
    match raiseAt with
    | none => bodyOps
    | some k => bodyOps.take k
  let cwd2 := executed.foldl applyOp cwd1
  chdir original_dir cwd2

/--
C6: whatever the compile-and-read body does, and whether or not it raises
midway, the working directory after `generate_bbl_content` equals the
working directory before the call: the `finally` block always restores the
saved directory.
-/
theorem C6_cwd_restored (temp_project : Str) (bodyOps : List SysOp)
    (raiseAt : Option Nat) (cwd : Str) :
    generate_bbl_content_cwd temp_project bodyOps raiseAt cwd = cwd := rfl

/-! ### `get_unique_filename` -/

/-- Decimal representation with explicit fuel (one digit per unit). -/
def natStrAux : Nat → Nat → Str
  | 0, _ => []
  | fuel + 1, n =>
    if n < 10 then [Nat.digitChar n]
    else natStrAux fuel (n / 10) ++ [Nat.digitChar (n % 10)]

/-- Decimal representation of a natural number (Python `str(n)`); the fuel
`n + 1` always suffices since `n < 10 ^ (n + 1)`. -/
def natStr (n : Nat) : Str := natStrAux (n + 1) n

/-- Decimal value of a digit string, for the injectivity of `natStr`. -/
def strVal (s : Str) : Nat := s.foldl (fun a c => 10 * a + (c.toNat - 48)) 0

theorem digitChar_toNat {d : Nat} (h : d < 10) : (Nat.digitChar d).toNat = 48 + d := by
  interval_cases d <;> rfl

theorem strVal_natStrAux :
    ∀ (fuel n : Nat), n < 10 ^ fuel → strVal (natStrAux fuel n) = n := by
  intro fuel
  induction fuel with
  | zero =>
    intro n hn
    interval_cases n
    rfl
  | succ f ih =>
    intro n hn
    rw [natStrAux]
    split
    case isTrue h =>
      simp [strVal, digitChar_toNat h]
    case isFalse h =>
      have hdiv : n / 10 < 10 ^ f := by
        rw [Nat.div_lt_iff_lt_mul (by omega)]
        calc n < 10 ^ (f + 1) := hn
        _ = 10 ^ f * 10 := by ring
      have hmod : n % 10 < 10 := Nat.mod_lt n (by omega)
      unfold strVal
      rw [List.foldl_append]
      have hrec : List.foldl (fun a c => 10 * a + (c.toNat - 48)) 0 (natStrAux f (n / 10))
          = n / 10 := ih (n / 10) hdiv
      rw [hrec]
      simp only [List.foldl_cons, List.foldl_nil]
      rw [digitChar_toNat hmod]
      omega

theorem strVal_natStr (n : Nat) : strVal (natStr n) = n := by
  refine strVal_natStrAux (n + 1) n ?_
  calc n < 2 ^ n := Nat.lt_two_pow n
  _ ≤ 2 ^ (n + 1) := Nat.pow_le_pow_right (by omega) (by omega)
  _ ≤ 10 ^ (n + 1) := Nat.pow_le_pow_left (by omega) _

theorem natStr_inj : Function.Injective natStr := by
  intro a b h
  have := congrArg strVal h
  rwa [strVal_natStr, strVal_natStr] at this

/-- `target_path.with_stem(f"{stem}_{counter}")` on a path string. -/
def with_stem_counter (p : Str) (c : Nat) : Str :=
  (List.take (p.length - (pname p).length) p ++ pstem (pname p))
    ++ '_' :: (natStr c ++ psuffix (pname p))

/-- The `while True` loop of `get_unique_filename`, with fuel. -/
def gufLoop (ex : List Str) (p : Str) : Nat → Nat → Option Str
  | 0, _ => none
  | fuel + 1, counter =>
    if with_stem_counter p counter ∈ ex then gufLoop ex p fuel (counter + 1)
    else some (with_stem_counter p counter)

/-- `get_unique_filename`: the existing files are modelled by the list `ex`.
The fuel `ex.length + 1` suffices (see `C10` below), so `none` is never
returned. -/
def get_unique_filename (ex : List Str) (target : Str) : Option Str :=
  if target ∈ ex then gufLoop ex target (ex.length + 1) 1
  else some target

theorem with_stem_counter_inj (p : Str) : Function.Injective (with_stem_counter p) := by
  intro a b h
  unfold with_stem_counter at h
  have h1 := List.append_cancel_left h
  have h2 : natStr a ++ psuffix (pname p) = natStr b ++ psuffix (pname p) := by
    injection h1
  exact natStr_inj (List.append_cancel_right h2)

theorem gufLoop_finds (ex : List Str) (p : Str) :
    ∀ (fuel counter : Nat),
      (∃ j, j < fuel ∧ with_stem_counter p (counter + j) ∉ ex) →
      ∃ q, gufLoop ex p fuel counter = some q ∧ q ∉ ex := by
  intro fuel
  induction fuel with
  | zero =>
    intro counter h
    obtain ⟨j, hj, _⟩ := h
    omega
  | succ f ih =>
    intro counter h
    obtain ⟨j, hj, hout⟩ := h
    by_cases hc : with_stem_counter p counter ∈ ex
    · have hj0 : j ≠ 0 := by
        intro h0
        rw [h0, Nat.add_zero] at hout
        exact hout hc
      have := ih (counter + 1) ⟨j - 1, by omega, by
        have : counter + 1 + (j - 1) = counter + j := by omega
        rw [this]
        exact hout⟩
      simpa [gufLoop, hc] using this
    · exact ⟨with_stem_counter p counter, by simp [gufLoop, hc], hc⟩

/--
C10: `get_unique_filename` always returns a path that does not exist in the
modelled directory listing `ex` — the target itself when it is free,
otherwise a `_counter` variant — so the subsequent copy never overwrites an
existing file.
-/
theorem C10_unique_filename (ex : List Str) (target : Str) :
    ∃ q, get_unique_filename ex target = some q ∧ q ∉ ex := by
  unfold get_unique_filename
  by_cases ht : target ∈ ex
  · rw [if_pos ht]
    refine gufLoop_finds ex target (ex.length + 1) 1 ?_
    by_contra hall
    push_neg at hall
    have hmem : ∀ j, j < ex.length + 1 → with_stem_counter target (1 + j) ∈ ex := by
      intro j hj
      exact hall j hj
    have hL : ((List.range (ex.length + 1)).map
        (fun j => with_stem_counter target (1 + j))).Nodup := by
      refine (List.nodup_range _).map ?_
      intro a b hab
      have := with_stem_counter_inj target hab
      omega
    have hsub : ((List.range (ex.length + 1)).map
        (fun j => with_stem_counter target (1 + j))).toFinset ⊆ ex.toFinset := by
      intro x hx
      simp only [List.mem_toFinset, List.mem_map, List.mem_range] at hx
      obtain ⟨j, hj, rfl⟩ := hx
      simp only [List.mem_toFinset]
      exact hmem j hj
    have hcard := Finset.card_le_card hsub
    rw [List.toFinset_card_of_nodup hL] at hcard
    have h1 := List.toFinset_card_le ex
    have h2 : ((List.range (ex.length + 1)).map
        (fun j => with_stem_counter target (1 + j))).length = ex.length + 1 := by
      simp
    omega
  · rw [if_neg ht]
    exact ⟨target, rfl, ht⟩

/-! ### `copy_bibliography` -/

/-- The token `\bibliography{` (14 characters). -/
def bibRefOpen : Str := '\\' :: "bibliography".toList ++ [lb]

/-- Match of `\\bibliography\{(.*?)\}` at the head of `s`: the full match,
the captured group, and the number of characters consumed. -/
def matchBibRefAt (s : Str) : Option (Str × Str × Nat) :=
  if startsWith bibRefOpen s then
    let r := List.drop 14 s
    let body := r.takeWhile notRb
    if startsWith [rb] (List.drop body.length r) then
      some (bibRefOpen ++ body ++ [rb], body, 14 + body.length + 1)
    else none
  else none

/-- `re.finditer(r'\\bibliography\{(.*?)\}', content)`: all matches, left to
right, resuming after each match. -/
def scanBibRefs : Nat → Str → List (Str × Str)
  | 0, _ => []
  | _, [] => []
  | fuel + 1, c :: cs =>
    match matchBibRefAt (c :: cs) with
    | some fbl => (fbl.1, fbl.2.1) :: scanBibRefs fuel (List.drop (fbl.2.2 - 1) cs)
    | none => scanBibRefs fuel cs

/-- Warning text printed for a missing bibliography file. -/
def warnBib (b : Str) : Str :=
  "Warning: Could not find bibliography file: ".toList ++ b

/-- Handling of one found bibliography file: compute the target name,
pick a unique name among the existing output files, copy, and return the
new stem together with the updated output listing. -/
def copyFound (outFs : List Str) (foundName : Str) :
    Option (Option Str × List Str × List Str) :=
  let target_name :=
    if psuffix (pname foundName) = '.' :: "bib".toList then pname foundName
    else pname foundName ++ '.' :: "bib".toList
  match get_unique_filename outFs target_name with
  | none => none
  | some actual => some (some (pstem actual), actual :: outFs, [])

/-- One iteration of the `for bib_file in bib_files` loop. -/
def copyName (projFs outFs : List Str) (bib_file : Str) :
    Option (Option Str × List Str × List Str) :=
  let b := pstrip bib_file
  if b ∈ projFs then copyFound outFs b
  else if b ++ '.' :: "bib".toList ∈ projFs then
    copyFound outFs (b ++ '.' :: "bib".toList)
  else some (none, outFs, [warnBib b])

/-- The inner loop of `copy_bibliography` over the comma-separated names of
one `\bibliography` reference; returns the renamed stems, the updated
output listing, and the warnings. -/
def copyNames (projFs : List Str) : List Str → List Str →
    Option (List Str × List Str × List Str)
  | [], outFs => some ([], outFs, [])
  | b :: rest, outFs =>
    match copyName projFs outFs b with
    | none => none
    | some now =>
      match copyNames projFs rest now.2.1 with
      | none => none
      | some rww => some (now.1.toList ++ rww.1, rww.2.1, now.2.2 ++ rww.2.2)

/--
`copy_bibliography`: `projFs` lists the strings `n` for which
`project_dir / n` exists, `outFs` those for which `output_dir / n` exists.
Returns the updated content, the final output listing, and the warnings
printed.
-/
def copy_bibliography (projFs outFs : List Str) (content : Str) :
    Option (Str × List Str × List Str) :=
  (scanBibRefs content.length content).foldl
    (fun acc m =>
      match acc with
      | none => none
      | some cfw =>
        match copyNames projFs (splitOn ',' m.2) cfw.2.1 with
        | none => none
        | some rww =>
          if rww.1 ≠ [] then
            some (pyReplace cfw.1 m.1 (bibRefOpen ++ joinOn ',' rww.1 ++ [rb]),
              rww.2.1, cfw.2.2 ++ rww.2.2)
          else some (cfw.1, rww.2.1, cfw.2.2 ++ rww.2.2))
    (some (content, outFs, []))

/-- `\bibliography{a,b}`. -/
def contentC5 : Str := bibRefOpen ++ 'a' :: ',' :: 'b' :: [rb]

set_option maxRecDepth 10000 in
/--
C5 counterexample: with `a.bib` present and `b` missing, the missing name
is warned about but then dropped from the rewritten reference — the whole
`\bibliography{a,b}` is replaced by `\bibliography{a}`, built from the
found names only — rather than left unchanged in the reference.
-/
theorem C5_counterexample :
    copy_bibliography ["a.bib".toList] [] contentC5 =
      some (bibRefOpen ++ 'a' :: [rb], ["a.bib".toList], [warnBib ['b']]) ∧
    bibRefOpen ++ 'a' :: [rb] ≠ contentC5 := by decide

/-- The warnings printed for the missing names of the given references. -/
def missingWarns (ms : List (Str × Str)) : List Str :=
  ms.foldr (fun m acc => (splitOn ',' m.2).map (fun b => warnBib (pstrip b)) ++ acc) []

theorem copyNames_all_missing (projFs : List Str) :
    ∀ (names : List Str) (outFs : List Str),
      (∀ b ∈ names, pstrip b ∉ projFs ∧ pstrip b ++ '.' :: "bib".toList ∉ projFs) →
      copyNames projFs names outFs
        = some ([], outFs, names.map (fun b => warnBib (pstrip b))) := by
  intro names
  induction names with
  | nil => intro outFs _; rfl
  | cons b rest ih =>
    intro outFs h
    obtain ⟨h1, h2⟩ := h b (List.mem_cons_self b rest)
    have hname : copyName projFs outFs b = some (none, outFs, [warnBib (pstrip b)]) := by
      unfold copyName
      rw [if_neg h1, if_neg h2]
    simp only [copyNames]
    rw [hname]
    dsimp only
    rw [ih outFs (fun x hx => h x (List.mem_cons_of_mem b hx))]
    rfl

theorem copy_bib_foldl_missing (projFs : List Str) :
    ∀ (ms : List (Str × Str)) (content : Str) (outFs : List Str) (acc : List Str),
      (∀ m ∈ ms, ∀ b ∈ splitOn ',' m.2,
        pstrip b ∉ projFs ∧ pstrip b ++ '.' :: "bib".toList ∉ projFs) →
      ms.foldl
        (fun acc m =>
          match acc with
          | none => none
          | some cfw =>
            match copyNames projFs (splitOn ',' m.2) cfw.2.1 with
            | none => none
            | some rww =>
              if rww.1 ≠ [] then
                some (pyReplace cfw.1 m.1 (bibRefOpen ++ joinOn ',' rww.1 ++ [rb]),
                  rww.2.1, cfw.2.2 ++ rww.2.2)
              else some (cfw.1, rww.2.1, cfw.2.2 ++ rww.2.2))
        (some (content, outFs, acc))
        = some (content, outFs, acc ++ missingWarns ms) := by
  intro ms
  induction ms with
  | nil =>
    intro content outFs acc _
    simp [missingWarns]
  | cons m ms' ih =>
    intro content outFs acc h
    simp only [List.foldl_cons]
    rw [copyNames_all_missing projFs (splitOn ',' m.2) outFs
      (h m (List.mem_cons_self m ms'))]
    dsimp only
    simp only [ne_eq, not_true_eq_false, if_false]
    rw [ih content outFs (acc ++ (splitOn ',' m.2).map (fun b => warnBib (pstrip b)))
      (fun x hx => h x (List.mem_cons_of_mem m hx))]
    simp [missingWarns, List.append_assoc]

/--
C5 (amended): in the non-flattening path, when no name of any
`\bibliography` reference resolves to an existing project file (neither as
written nor with `.bib` appended), every name produces a non-fatal warning
and the content — including every reference — is returned unchanged.  When
at least one name of a reference is found, however, the reference is
rebuilt from the found names only and missing names are dropped from it
(see the counterexample).
-/
theorem C5_missing_names (projFs outFs : List Str) (content : Str)
    (h : ∀ m ∈ scanBibRefs content.length content, ∀ b ∈ splitOn ',' m.2,
        pstrip b ∉ projFs ∧ pstrip b ++ '.' :: "bib".toList ∉ projFs) :
    copy_bibliography projFs outFs content
      = some (content, outFs, missingWarns (scanBibRefs content.length content)) := by
  unfold copy_bibliography
  have := copy_bib_foldl_missing projFs (scanBibRefs content.length content)
    content outFs [] h
  simpa using this

/-- `\bibliography{x}`. -/
def contentC5w : Str := bibRefOpen ++ 'x' :: [rb]

set_option maxRecDepth 10000 in
theorem C5_missing_names_witness :
    copy_bibliography [] [['q']] contentC5w = some (contentC5w, [['q']], [warnBib ['x']]) := by
  have h := C5_missing_names [] [['q']] contentC5w (by decide)
  rw [h]
  decide

/-! ### `reorder_bibliography` and citation extraction -/

/-- The token `\cite{` (6 characters). -/
def citeOpen : Str := '\\' :: "cite".toList ++ [lb]

/-- Match of `\\cite\{([^}]+)\}` at the head of `s`: the captured group and
the characters consumed. -/
def matchCiteAt (s : Str) : Option (Str × Nat) :=
  if startsWith citeOpen s then
    let r := List.drop 6 s
    let body := r.takeWhile notRb
    if body ≠ [] then
      if startsWith [rb] (List.drop body.length r) then
        some (body, 6 + body.length + 1)
      else none
    else none
  else none

/-- `re.finditer(r'\\cite\{([^}]+)\}', content)`: all captured groups in
order. -/
def scanCites : Nat → Str → List Str
  | 0, _ => []
  | _, [] => []
  | fuel + 1, c :: cs =>
    match matchCiteAt (c :: cs) with
    | some bl => bl.1 :: scanCites fuel (List.drop (bl.2 - 1) cs)
    | none => scanCites fuel cs

/-- Duplicate removal preserving first occurrences (the `seen` set loop). -/
def dedupFirst (l : List Str) : List Str :=
  l.foldl (fun acc x => if x ∈ acc then acc else acc ++ [x]) []

/-- The citation list `process_bibliography` passes to
`reorder_bibliography`: every `\cite` group in order, split at commas,
stripped, then deduplicated preserving first occurrences. -/
def citationsOf (content : Str) : List Str :=
  dedupFirst ((scanCites content.length content).foldr
    (fun g acc => (splitOn ',' g).map pstrip ++ acc) [])

/-- The token `\bibitem` (8 characters). -/
def bibitemTok : Str := '\\' :: "bibitem".toList

/-- The lookahead `(?=\\bibitem|\s*\\end\{thebibliography\})`. -/
def bibStopAt (s : Str) : Bool :=
  startsWith bibitemTok s || startsWith endThebib (List.drop (wsLen s) s)

/-- Offset of the first position of `s` satisfying the lookahead. -/
def findBibStop : Str → Option Nat
  | [] => none
  | c :: cs =>
    if bibStopAt (c :: cs) then some 0
    else (findBibStop cs).map (fun j => j + 1)

/-- Match of the bibitem pattern
`\\bibitem\s*(?:\[[^]]*\])?\s*\{([^}]+)\}(.*?)(?=...)` at the head of `s`:
key, raw body, and characters consumed (the lookahead is not consumed). -/
def matchBibitemAt (s : Str) : Option (Str × Str × Nat) :=
  if startsWith bibitemTok s then
    let r1 := List.drop 8 s
    let w1 := wsLen r1
    let r2 := List.drop w1 r1
    let brOpt : Option Nat :=
      match r2 with
      | '[' :: rest =>
        let inside := rest.takeWhile (fun c => c != ']')
        if startsWith [']'] (List.drop inside.length rest) then
          some (1 + inside.length + 1)
        else none
      | _ => some 0
    match brOpt with
    | none => none
    | some brLen =>
      let r3 := List.drop brLen r2
      let w2 := wsLen r3
      let r4 := List.drop w2 r3
      if startsWith [lb] r4 then
        let r5 := List.drop 1 r4
        let key := r5.takeWhile notRb
        if key ≠ [] then
          if startsWith [rb] (List.drop key.length r5) then
            let r6 := List.drop (key.length + 1) r5
            match findBibStop r6 with
            | none => none
            | some j =>
              some (key, List.take j r6,
                8 + w1 + brLen + w2 + 1 + key.length + 1 + j)
          else none
        else none
      else none
  else none

/-- All bibitem matches of `finditer`, as (key, stripped body) pairs. -/
def scanBibitems : Nat → Str → List (Str × Str)
  | 0, _ => []
  | _, [] => []
  | fuel + 1, c :: cs =>
    match matchBibitemAt (c :: cs) with
    | some kbl => (kbl.1, pstrip kbl.2.1) :: scanBibitems fuel (List.drop (kbl.2.2 - 1) cs)
    | none => scanBibitems fuel cs

/-- Python `dict` insertion: a repeated key keeps its original position but
takes the new value. -/
def upsert : List (Str × Str) → Str × Str → List (Str × Str)
  | [], p => [p]
  | q :: rest, p => if q.1 = p.1 then (q.1, p.2) :: rest else q :: upsert rest p

/-- The `bibitem_dict` comprehension. -/
def bibitemDict (bbl : Str) : List (Str × Str) :=
  (scanBibitems bbl.length bbl).foldl upsert []

/-- `dict` lookup. -/
def dlookup (d : List (Str × Str)) (k : Str) : Option Str :=
  (d.find? (fun q => decide (q.1 = k))).map Prod.snd

/-- Match of `\begin\{thebibliography\}\{[^}]*\}` at the head of `s`. -/
def matchBeginAnyAt (s : Str) : Option Str :=
  if startsWith beginMarkerPre s then
    let r := List.drop 24 s
    let body := r.takeWhile notRb
    if startsWith [rb] (List.drop body.length r) then
      some (beginMarkerPre ++ body ++ [rb])
    else none
  else none

/-- `re.search(r'\begin\{thebibliography\}\{[^}]*\}', bbl)`: first match. -/
def findBeginAny : Str → Option Str
  | [] => none
  | c :: cs =>
    match matchBeginAnyAt (c :: cs) with
    | some f => some f
    | none => findBeginAny cs
/-- The `bib_definitions` preamble block of `reorder_bibliography`
(source lines 144-187), verbatim. -/
def bib_definitions : Str :=
  "\\makeatletter\n".toList
    ++ "\\providecommand \\@ifxundefined [1]\x7b%\n".toList
    ++ " \\@ifx\x7b#1\\undefined\x7d\n".toList
    ++ "\x7d%\n".toList
    ++ "\\providecommand \\@ifnum [1]\x7b%\n".toList
    ++ " \\ifnum #1\\expandafter \\@firstoftwo\n".toList
    ++ " \\else \\expandafter \\@secondoftwo\n".toList
    ++ " \\fi\n".toList
    ++ "\x7d%\n".toList
    ++ "\\providecommand \\@ifx [1]\x7b%\n".toList
    ++ " \\ifx #1\\expandafter \\@firstoftwo\n".toList
    ++ " \\else \\expandafter \\@secondoftwo\n".toList
    ++ " \\fi\n".toList
    ++ "\x7d%\n".toList
    ++ "\\providecommand \\natexlab [1]\x7b#1\x7d%\n".toList
    ++ "\\providecommand \\enquote  [1]\x7b\x60\x60#1\x27\x27\x7d%\n".toList
    ++ "\\providecommand \\bibnamefont  [1]\x7b#1\x7d%\n".toList
    ++ "\\providecommand \\bibfnamefont [1]\x7b#1\x7d%\n".toList
    ++ "\\providecommand \\citenamefont [1]\x7b#1\x7d%\n".toList
    ++ "\\providecommand \\href@noop [0]\x7b\\@secondoftwo\x7d%\n".toList
    ++ "\\providecommand \\href [0]\x7b\\begingroup \\@sanitize@url \\@href\x7d%\n".toList
    ++ "\\providecommand \\@href[1]\x7b\\@@startlink\x7b#1\x7d\\@@href\x7d%\n".toList
    ++ "\\providecommand \\@@href[1]\x7b\\endgroup#1\\@@endlink\x7d%\n".toList
    ++ "\\providecommand \\@sanitize@url [0]\x7b\\catcode \x60\\\\12\\catcode \x60\\$12\\catcode\n".toList
    ++ "  \x60\\&12\\catcode \x60\\#12\\catcode \x60\\^12\\catcode \x60\\_12\\catcode \x60\\%12\\relax\x7d%\n".toList
    ++ "\\providecommand \\@@startlink[1]\x7b\x7d%\n".toList
    ++ "\\providecommand \\@@endlink[0]\x7b\x7d%\n".toList
    ++ "\\providecommand \\url  [0]\x7b\\begingroup\\@sanitize@url \\@url \x7d%\n".toList
    ++ "\\providecommand \\@url [1]\x7b\\endgroup\\@href \x7b#1\x7d\x7b\\urlprefix \x7d\x7d%\n".toList
    ++ "\\providecommand \\urlprefix  [0]\x7bURL \x7d%\n".toList
    ++ "\\providecommand \\Eprint [0]\x7b\\href \x7d%\n".toList
    ++ "\\providecommand \\doibase [0]\x7bhttps://doi.org/\x7d%\n".toList
    ++ "\\providecommand \\selectlanguage [0]\x7b\\@gobble\x7d%\n".toList
    ++ "\\providecommand \\bibinfo  [0]\x7b\\@secondoftwo\x7d%\n".toList
    ++ "\\providecommand \\bibfield  [0]\x7b\\@secondoftwo\x7d%\n".toList
    ++ "\\providecommand \\translation [1]\x7b[#1]\x7d%\n".toList
    ++ "\\providecommand \\BibitemOpen [0]\x7b\x7d%\n".toList
    ++ "\\providecommand \\bibitemStop [0]\x7b\x7d%\n".toList
    ++ "\\providecommand \\bibitemNoStop [0]\x7b.\\EOS\\space\x7d%\n".toList
    ++ "\\providecommand \\EOS [0]\x7b\\spacefactor3000\\relax\x7d%\n".toList
    ++ "\\providecommand \\BibitemShut  [1]\x7b\\csname bibitem#1\\endcsname\x7d%\n".toList
    ++ "\\let\\auto@bib@innerbib\\@empty\n".toList
    ++ "%</preamble>\n".toList
    ++ "".toList

/-- `f'\\bibitem [{{{i}}}] {{{cite_key}}}{bibitem_dict[cite_key]}'`. -/
def mkNumberedItem (i : Nat) (key value : Str) : Str :=
  bibitemTok ++ ' ' :: '[' :: lb :: (natStr i ++ rb :: ']' :: ' ' :: lb :: (key ++ rb :: value))

/-- `f'\\bibitem {{{cite_key}}}{bibitem_dict[cite_key]}'`. -/
def mkPlainItem (key value : Str) : Str :=
  bibitemTok ++ ' ' :: lb :: (key ++ rb :: value)

/-- The `enumerate(citations, 1)` emission loop: cited keys with no entry
are skipped while the counter still advances. -/
def numberItems (d : List (Str × Str)) : List Str → Nat → List Str
  | [], _ => []
  | k :: ks, i =>
    match dlookup d k with
    | some v => mkNumberedItem i k v :: numberItems d ks (i + 1)
    | none => numberItems d ks (i + 1)

/-- `reorder_bibliography`. -/
def reorder_bibliography (fixRef : Bool) (bbl : Str) (citations : List Str) : Str :=
  let d := bibitemDict bbl
  match findBeginAny bbl with
  | none => bbl
  | some beginFull =>
    let items :=
      if fixRef ∧ citations ≠ [] then numberItems d citations 1
      else d.map (fun q => mkPlainItem q.1 q.2)
    joinOn '\n' ([bib_definitions, beginFull] ++ items ++ [endThebib])

theorem numberItems_spec (d : List (Str × Str)) :
    ∀ (ks : List Str) (i : Nat),
      numberItems d ks i
        = (List.enumFrom i ks).filterMap
            (fun p => (dlookup d p.2).map (fun v => mkNumberedItem p.1 p.2 v)) := by
  intro ks
  induction ks with
  | nil => intro i; rfl
  | cons k ks' ih =>
    intro i
    cases h : dlookup d k with
    | some v =>
      simp [numberItems, h, List.enumFrom, List.filterMap_cons, ih]
    | none =>
      simp [numberItems, h, List.enumFrom, List.filterMap_cons, ih]

/--
C1 (amended): with `fixReferenceNumbers` set and a nonempty citation list,
the rebuilt bibliography consists of the preamble block, the begin marker,
one entry per cited key that has a compiled entry — in citation order, each
carrying the bracketed number equal to its 1-based position in the
deduplicated citation list — and the end marker.  The entry count is at
most the number of cited keys, but because skipped keys still advance the
counter the attached numbers are in general not contiguous.
-/
theorem C1_numbering (bbl : Str) (citations : List Str) (beginFull : Str)
    (hb : findBeginAny bbl = some beginFull) (hc : citations ≠ []) :
    reorder_bibliography true bbl citations
      = joinOn '\n' ([bib_definitions, beginFull]
          ++ (List.enumFrom 1 citations).filterMap
              (fun p => (dlookup (bibitemDict bbl) p.2).map
                (fun v => mkNumberedItem p.1 p.2 v))
          ++ [endThebib])
    ∧ ((List.enumFrom 1 citations).filterMap
          (fun p => (dlookup (bibitemDict bbl) p.2).map
            (fun v => mkNumberedItem p.1 p.2 v))).length ≤ citations.length := by
  constructor
  · simp only [reorder_bibliography]
    rw [hb]
    dsimp only
    rw [if_pos ⟨trivial, hc⟩]
    rw [numberItems_spec]
  · calc ((List.enumFrom 1 citations).filterMap
          (fun p => (dlookup (bibitemDict bbl) p.2).map
            (fun v => mkNumberedItem p.1 p.2 v))).length
        ≤ (List.enumFrom 1 citations).length := List.length_filterMap_le _ _
    _ = citations.length := List.enumFrom_length

/-- `\cite{k1,k2}`. -/
def contentC1 : Str := citeOpen ++ "k1,k2".toList ++ [rb]

/-- A compiled bibliography with an entry for `k2` only. -/
def bblC1 : Str :=
  beginMarkerPre ++ '9' :: rb :: '\n' ::
    bibitemTok ++ ' ' :: lb :: "k2".toList ++ rb :: ' ' :: 'B' :: '2' :: ' ' :: '\n' :: endThebib

set_option maxRecDepth 10000 in
/--
C1 counterexample: the document cites `k1, k2` but only `k2` has a
compiled entry.  The rebuilt bibliography contains exactly one entry,
carrying the bracketed number 2 — the position of `k2` in the citation
list — not 1: the emitted numbers are not contiguous starting at 1.
-/
theorem C1_counterexample :
    citationsOf contentC1 = ["k1".toList, "k2".toList] ∧
    numberItems (bibitemDict bblC1) (citationsOf contentC1) 1
      = [mkNumberedItem 2 "k2".toList "B2".toList] ∧
    reorder_bibliography true bblC1 (citationsOf contentC1)
      = joinOn '\n' ([bib_definitions, beginMarkerPre ++ '9' :: [rb]]
          ++ [mkNumberedItem 2 "k2".toList "B2".toList] ++ [endThebib]) ∧
    mkNumberedItem 2 "k2".toList "B2".toList
      ≠ mkNumberedItem 1 "k2".toList "B2".toList := by
  refine ⟨by decide, by decide, ?_, by decide⟩
  simp only [reorder_bibliography]
  rw [show findBeginAny bblC1 = some (beginMarkerPre ++ '9' :: [rb]) from by decide]
  dsimp only
  rw [if_pos ⟨trivial, by decide⟩]
  rw [show numberItems (bibitemDict bblC1) (citationsOf contentC1) 1
      = [mkNumberedItem 2 "k2".toList "B2".toList] from by decide]

/-- A compiled bibliography with a single entry `k`. -/
def bblC1w : Str :=
  beginMarkerPre ++ '9' :: rb :: '\n' ::
    bibitemTok ++ ' ' :: lb :: 'k' :: rb :: 'V' :: '\n' :: endThebib

set_option maxRecDepth 10000 in
theorem C1_numbering_witness :
    reorder_bibliography true bblC1w [['k']]
      = joinOn '\n' ([bib_definitions, beginMarkerPre ++ '9' :: [rb]]
          ++ (List.enumFrom 1 [['k']]).filterMap
              (fun p => (dlookup (bibitemDict bblC1w) p.2).map
                (fun v => mkNumberedItem p.1 p.2 v))
          ++ [endThebib])
    ∧ ((List.enumFrom 1 [['k']]).filterMap
          (fun p => (dlookup (bibitemDict bblC1w) p.2).map
            (fun v => mkNumberedItem p.1 p.2 v))).length
        ≤ ([['k']] : List Str).length :=
  C1_numbering bblC1w [['k']] (beginMarkerPre ++ '9' :: [rb]) (by decide) (by decide)
